import Mathlib

/-!
Verification of the `music-profanity-filter` repository: a shallow embedding
of the core modules (`edl.py`, `transcriber.py`, `detector.py`, `editor.py`,
`pipeline.py`) and theorems settling the specification claims.

Modelling conventions:
* Python `float` is modelled as `ℚ` (exact arithmetic; the spec's tolerances
  are far above double-precision rounding error).
* Python `str` is modelled as Lean `String`, with the character-level helpers
  below standing in for the Python string/regex primitives they name.
* Fallible Python code (exceptions) is modelled with `Option`/`Except`.
* External collaborators (Demucs separation, Whisper transcription, audio
  codec I/O, the file system) are modelled as oracle fields of environment
  structures; their outcomes are `Except`-valued parameters.
-/

/-! ## Character / string primitives shared by several modules -/

/-- Python `\w` (ASCII fragment): letters, digits and underscore. -/
def isWordChar (c : Char) : Bool := c.isAlphanum || c = '_'

/-- `re.sub(r"[^\w]", "", word.lower())` — shared normalisation used by
`transcriber.normalize_word` and `ProfanityDetector._normalize_word`. -/
def normalize_word (w : String) : String :=
  ⟨(w.data.map Char.toLower).filter isWordChar⟩

/-- Numeric value of a list of decimal digit characters (value of `int(s)`
on an all-digit string). -/
def natVal (ds : List Char) : ℕ :=
  ds.foldl (fun a c => 10 * a + (c.toNat - 48)) 0

/-- Decimal rendering of a natural number, fuel-structured so that it
kernel-evaluates (fuel `n+1` always suffices). -/
def natStrAux : ℕ → ℕ → List Char → List Char
  | 0, _, acc => acc
  | fuel + 1, n, acc =>
    let acc' := Nat.digitChar (n % 10) :: acc
    if n < 10 then acc' else natStrAux fuel (n / 10) acc'

/-- Decimal rendering of a natural number (Python `str(n)` / `f"{n}"`). -/
def natStr (n : ℕ) : List Char := natStrAux (n + 1) n []

/-- Two-digit zero-padded rendering (the shape `%05.2f` gives the integer
part of a value below 100). -/
def pad2 (n : ℕ) : List Char :=
  if n < 10 then ['0', Nat.digitChar n] else natStr n

/-- Python `str.strip()` (whitespace on both ends). -/
def trimCh (cs : List Char) : List Char :=
  ((cs.dropWhile Char.isWhitespace).reverse.dropWhile Char.isWhitespace).reverse

/-- Python `float(s)` on the plain-decimal fragment `[+-]?digits[.digits?]`
(the only shapes the repository feeds it; exponent/`inf`/`nan` forms are
modelled as failures). -/
def pyFloatCh (cs0 : List Char) : Option ℚ :=
  let cs1 := trimCh cs0
  let sgn : ℚ := if cs1.head? = some '-' then -1 else 1
  let cs := if cs1.head? = some '-' || cs1.head? = some '+' then cs1.tail else cs1
  let ds := cs.takeWhile Char.isDigit
  let rest := cs.drop ds.length
  match rest with
  | [] => if ds = [] then none else some (sgn * natVal ds)
  | '.' :: rest' =>
    let fs := rest'.takeWhile Char.isDigit
    let rest'' := rest'.drop fs.length
    if rest'' = [] && !(ds = [] && fs = []) then
      some (sgn * ((natVal ds : ℚ) + (natVal fs : ℚ) / 10 ^ fs.length))
    else none
  | _ => none

/-- Python `int(s)` on a decimal string (strips whitespace, optional sign,
then requires at least one digit and nothing else). -/
def pyIntCh (cs0 : List Char) : Option ℤ :=
  let cs1 := trimCh cs0
  match cs1 with
  | '+' :: t => if t ≠ [] ∧ t.all Char.isDigit then some (natVal t) else none
  | '-' :: t => if t ≠ [] ∧ t.all Char.isDigit then some (-(natVal t : ℤ)) else none
  | t => if t ≠ [] ∧ t.all Char.isDigit then some (natVal t) else none

/-- Python `s.split(":")`. -/
def splitOnColon : List Char → List (List Char)
  | [] => [[]]
  | c :: rest =>
    if c = ':' then [] :: splitOnColon rest
    else
      match splitOnColon rest with
      | [] => [[c]]
      | p :: ps => (c :: p) :: ps

/-- Round half to even (the rounding CPython's `format` applies when
printing with `%.2f`, stated on the exact rational value). -/
def rhe (q : ℚ) : ℤ :=
  if q - ⌊q⌋ = 1 / 2 then (if ⌊q⌋ % 2 = 0 then ⌊q⌋ else ⌊q⌋ + 1)
  else ⌊q + 1 / 2⌋

/-! ## `edl.py`: timestamp formatting and parsing -/

/-- `format_timestamp` (edl.py): `f"{minutes}:{secs:05.2f}"` with
`minutes = int(seconds // 60)` and `secs = seconds % 60`; the `%.2f`
rendering is modelled by exact half-even rounding to centiseconds. -/
def formatTimestampCh (seconds : ℚ) : List Char :=
  let minutes : ℤ := ⌊seconds / 60⌋
  let secs : ℚ := seconds - 60 * (⌊seconds / 60⌋ : ℚ)
  let c : ℕ := (rhe (100 * secs)).toNat
  let mStr := if minutes < 0 then '-' :: natStr (-minutes).toNat else natStr minutes.toNat
  mStr ++ ':' :: (pad2 (c / 100) ++ '.' :: pad2 (c % 100))

/-- `format_timestamp` at the `String` level. -/
def format_timestamp (seconds : ℚ) : String := ⟨formatTimestampCh seconds⟩

/-- `parse_timestamp` (edl.py): first tries `float(timestamp)`, then the
`M:SS.mm` and `H:MM:SS.mm` forms; `none` models the raised `ValueError`. -/
def parseTimestampCh (cs : List Char) : Option ℚ :=
  let t := trimCh cs
  match pyFloatCh t with
  | some v => some v
  | none =>
    match splitOnColon t with
    | [p1, p2] => do
      let m ← pyIntCh p1
      let s ← pyFloatCh p2
      pure ((m : ℚ) * 60 + s)
    | [p1, p2, p3] => do
      let h ← pyIntCh p1
      let m ← pyIntCh p2
      let s ← pyFloatCh p3
      pure ((h : ℚ) * 3600 + (m : ℚ) * 60 + s)
    | _ => none

/-- `parse_timestamp` at the `String` level. -/
def parse_timestamp (s : String) : Option ℚ := parseTimestampCh s.data

example : formatTimestampCh 0 = ['0', ':', '0', '0', '.', '0', '0'] := by
  have h : rhe 0 = 0 := by norm_num [rhe]
  simp [formatTimestampCh, h, natStr, natStrAux, pad2]
  decide

/-! ## Claim C7: `parse_timestamp ∘ format_timestamp` round trip -/

lemma char_isDigit_cases {c : Char} (h : c.isDigit = true) :
    48 ≤ c.val.toNat ∧ c.val.toNat ≤ 57 := by
  simp only [Char.isDigit, Bool.and_eq_true, decide_eq_true_eq] at h
  obtain ⟨h1, h2⟩ := h
  exact ⟨h1, h2⟩

lemma isDigit_not_ws {c : Char} (h : c.isDigit = true) : c.isWhitespace = false := by
  obtain ⟨h1, h2⟩ := char_isDigit_cases h
  simp only [Char.isWhitespace, Bool.or_eq_false_iff, decide_eq_false_iff_not]
  refine ⟨⟨⟨?_, ?_⟩, ?_⟩, ?_⟩ <;>
    (intro hc; subst hc; simp_all)

lemma isDigit_ne_of_not {c d : Char} (h : c.isDigit = true) (hd : d.isDigit = false) :
    c ≠ d := by
  intro hc; subst hc; simp [h] at hd

lemma dropWhile_eq_self_of {p : Char → Bool} {l : List Char}
    (h : ∀ c ∈ l, p c = false) : l.dropWhile p = l := by
  cases l with
  | nil => rfl
  | cons a t => simp [List.dropWhile, h a (by simp)]

lemma trimCh_eq_self {l : List Char} (h : ∀ c ∈ l, c.isWhitespace = false) :
    trimCh l = l := by
  unfold trimCh
  rw [dropWhile_eq_self_of h, dropWhile_eq_self_of (fun c hc => h c (by simpa using hc)),
    List.reverse_reverse]

lemma takeWhile_all_of {p : Char → Bool} {l : List Char}
    (h : ∀ c ∈ l, p c = true) : l.takeWhile p = l :=
  List.takeWhile_eq_self_iff.mpr h

lemma takeWhile_append_stop {p : Char → Bool} {l r : List Char} {x : Char}
    (h : ∀ c ∈ l, p c = true) (hx : p x = false) :
    (l ++ x :: r).takeWhile p = l := by
  induction l with
  | nil => simp [List.takeWhile, hx]
  | cons a t ih =>
    have ha : p a = true := h a (by simp)
    simp [List.takeWhile_cons, ha, ih (fun c hc => h c (by simp [hc]))]

lemma splitOnColon_no {l : List Char} (h : ':' ∉ l) : splitOnColon l = [l] := by
  induction l with
  | nil => rfl
  | cons a t ih =>
    have ha : a ≠ ':' := fun hc => h (by simp [hc])
    have ht : ':' ∉ t := fun hc => h (by simp [hc])
    simp [splitOnColon, ha, ih ht]

lemma splitOnColon_append {l r : List Char} (h : ':' ∉ l) :
    splitOnColon (l ++ ':' :: r) = l :: splitOnColon r := by
  induction l with
  | nil => simp [splitOnColon]
  | cons a t ih =>
    have ha : a ≠ ':' := fun hc => h (by simp [hc])
    have ht : ':' ∉ t := fun hc => h (by simp [hc])
    simp [splitOnColon, ha, ih ht]

lemma natStr_facts : ∀ n : ℕ, n < 100 →
    (∀ c ∈ natStr n, c.isDigit = true) ∧ natStr n ≠ [] := by decide

lemma pyIntCh_natStr : ∀ n : ℕ, n < 100 → pyIntCh (natStr n) = some (n : ℤ) := by decide

lemma pad2_facts : ∀ n : ℕ, n < 100 →
    (∀ c ∈ pad2 n, c.isDigit = true) ∧ pad2 n ≠ [] ∧
      natVal (pad2 n) = n ∧ (pad2 n).length = 2 := by decide

lemma rhe_abs_le (q : ℚ) : |((rhe q : ℤ) : ℚ) - q| ≤ 1 / 2 := by
  have hfl : (⌊q⌋ : ℚ) ≤ q := Int.floor_le q
  have hfu : q < (⌊q⌋ : ℚ) + 1 := Int.lt_floor_add_one q
  unfold rhe
  split
  · rename_i hfr
    have hq : q = (⌊q⌋ : ℚ) + 1 / 2 := by linarith [hfr]
    split <;> rw [abs_le] <;> push_cast <;> constructor <;> linarith
  · have h1 : (⌊q + 1 / 2⌋ : ℚ) ≤ q + 1 / 2 := Int.floor_le _
    have h2 : q + 1 / 2 < (⌊q + 1 / 2⌋ : ℚ) + 1 := Int.lt_floor_add_one _
    rw [abs_le]; constructor <;> linarith

lemma rhe_nonneg {q : ℚ} (h : 0 ≤ q) : 0 ≤ rhe q := by
  have h0 : (0 : ℤ) ≤ ⌊q⌋ := Int.floor_nonneg.mpr h
  unfold rhe
  split
  · split <;> omega
  · exact le_trans h0 (Int.floor_le_floor (by linarith))

lemma rhe_le_of_lt {q : ℚ} {n : ℤ} (h : q < (n : ℚ)) : rhe q ≤ n := by
  have hfl : ⌊q⌋ < n := by
    have := Int.floor_le q
    exact_mod_cast Int.floor_lt.mpr (by exact_mod_cast h)
  unfold rhe
  split
  · split <;> omega
  · have : ⌊q + 1 / 2⌋ < n + 1 := by
      rw [Int.floor_lt]; push_cast; linarith
    omega

lemma pyFloatCh_digit_colon {ds r : List Char} (hds : ∀ c ∈ ds, c.isDigit = true)
    (hne : ds ≠ []) (hwr : ∀ c ∈ r, c.isWhitespace = false) :
    pyFloatCh (ds ++ ':' :: r) = none := by
  obtain ⟨d, ds', rfl⟩ : ∃ d ds', ds = d :: ds' := by
    cases ds with
    | nil => exact absurd rfl hne
    | cons d ds' => exact ⟨d, ds', rfl⟩
  have hd : d.isDigit = true := hds d (by simp)
  have hws : ∀ c ∈ (d :: ds') ++ ':' :: r, c.isWhitespace = false := by
    intro c hc
    rcases List.mem_append.mp hc with h1 | h2
    · exact isDigit_not_ws (hds c h1)
    · rcases List.mem_cons.mp h2 with rfl | h2'
      · decide
      · exact hwr c h2'
  have hd1 : d ≠ '-' := isDigit_ne_of_not hd (by decide)
  have hd2 : d ≠ '+' := isDigit_ne_of_not hd (by decide)
  have htk : ((d :: ds') ++ ':' :: r).takeWhile Char.isDigit = d :: ds' :=
    takeWhile_append_stop hds (by decide)
  have hdrop : ((d :: ds') ++ ':' :: r).drop (d :: ds').length = ':' :: r :=
    List.drop_left (d :: ds') (':' :: r)
  unfold pyFloatCh
  rw [trimCh_eq_self hws]
  simp only [List.cons_append] at htk hdrop ⊢
  simp only [List.head?_cons, Option.some.injEq, hd1, hd2, decide_False,
    Bool.or_self, if_false, Bool.false_or, ite_false, Bool.false_eq_true, htk, hdrop]
  rfl

lemma pyFloatCh_digits_dot {ds fs : List Char} (hds : ∀ c ∈ ds, c.isDigit = true)
    (hfs : ∀ c ∈ fs, c.isDigit = true) (hne : ds ≠ []) :
    pyFloatCh (ds ++ '.' :: fs) =
      some ((natVal ds : ℚ) + (natVal fs : ℚ) / 10 ^ fs.length) := by
  obtain ⟨d, ds', rfl⟩ : ∃ d ds', ds = d :: ds' := by
    cases ds with
    | nil => exact absurd rfl hne
    | cons d ds' => exact ⟨d, ds', rfl⟩
  have hd : d.isDigit = true := hds d (by simp)
  have hws : ∀ c ∈ (d :: ds') ++ '.' :: fs, c.isWhitespace = false := by
    intro c hc
    rcases List.mem_append.mp hc with h1 | h2
    · exact isDigit_not_ws (hds c h1)
    · rcases List.mem_cons.mp h2 with rfl | h2'
      · decide
      · exact isDigit_not_ws (hfs c h2')
  have hd1 : d ≠ '-' := isDigit_ne_of_not hd (by decide)
  have hd2 : d ≠ '+' := isDigit_ne_of_not hd (by decide)
  have htk : ((d :: ds') ++ '.' :: fs).takeWhile Char.isDigit = d :: ds' :=
    takeWhile_append_stop hds (by decide)
  have hdrop : ((d :: ds') ++ '.' :: fs).drop (d :: ds').length = '.' :: fs :=
    List.drop_left (d :: ds') ('.' :: fs)
  have htkf : fs.takeWhile Char.isDigit = fs := takeWhile_all_of hfs
  unfold pyFloatCh
  rw [trimCh_eq_self hws]
  simp only [List.cons_append] at htk hdrop ⊢
  simp only [List.head?_cons, Option.some.injEq, hd1, hd2, decide_False,
    Bool.or_self, if_false, Bool.false_or, ite_false, Bool.false_eq_true, htk, hdrop]
  simp only [htkf, List.drop_length, one_mul]
  rfl

lemma parseTimestampCh_two_parts {l p1 p2 : List Char}
    (hws : ∀ c ∈ l, c.isWhitespace = false)
    (hfloat : pyFloatCh l = none)
    (hsplit : splitOnColon l = [p1, p2])
    {mv : ℤ} (hm : pyIntCh p1 = some mv) {sv : ℚ} (hs : pyFloatCh p2 = some sv) :
    parseTimestampCh l = some ((mv : ℚ) * 60 + sv) := by
  unfold parseTimestampCh
  simp only [trimCh_eq_self hws, hfloat, hsplit, hm, hs, Option.bind_eq_bind,
    Option.some_bind]
  rfl

/-- C7: for every rational `x` in `[0, 3600)`, parsing the formatted
timestamp `format_timestamp x` succeeds and the parsed value is within
`0.01` of `x` (`parse_timestamp (format_timestamp x)` round trip). -/
theorem parse_format_roundtrip (x : ℚ) (h0 : 0 ≤ x) (h1 : x < 3600) :
    ∃ y : ℚ, parse_timestamp (format_timestamp x) = some y ∧ |y - x| ≤ 1 / 100 := by
  have hm0 : (0 : ℤ) ≤ ⌊x / 60⌋ := Int.floor_nonneg.mpr (by positivity)
  have hm59 : ⌊x / 60⌋ ≤ 59 := by
    have hlt : x / 60 < 60 := by linarith
    have := Int.floor_lt.mpr (by exact_mod_cast hlt : x / 60 < ((60 : ℤ) : ℚ))
    omega
  have hsecs0 : 0 ≤ x - 60 * (⌊x / 60⌋ : ℚ) := by
    have := Int.floor_le (x / 60)
    nlinarith
  have hsecs60 : x - 60 * (⌊x / 60⌋ : ℚ) < 60 := by
    have := Int.lt_floor_add_one (x / 60)
    nlinarith
  have hc0 : 0 ≤ rhe (100 * (x - 60 * (⌊x / 60⌋ : ℚ))) := rhe_nonneg (by nlinarith)
  have hc6000 : rhe (100 * (x - 60 * (⌊x / 60⌋ : ℚ))) ≤ 6000 :=
    rhe_le_of_lt (by push_cast; nlinarith)
  set cI : ℤ := rhe (100 * (x - 60 * (⌊x / 60⌋ : ℚ))) with hcI
  set c : ℕ := cI.toNat with hcdef
  have hcc : (c : ℤ) = cI := Int.toNat_of_nonneg hc0
  have hcle : c ≤ 6000 := by omega
  set mn : ℕ := (⌊x / 60⌋).toNat with hmndef
  have hmn : mn < 100 := by omega
  have hmnc : (mn : ℤ) = ⌊x / 60⌋ := Int.toNat_of_nonneg hm0
  have hfmt : formatTimestampCh x =
      natStr mn ++ ':' :: (pad2 (c / 100) ++ '.' :: pad2 (c % 100)) := by
    simp only [formatTimestampCh]
    rw [if_neg (not_lt.mpr hm0)]
  obtain ⟨hmd, hmne⟩ := natStr_facts mn hmn
  obtain ⟨hh_d, hh_ne, hh_val, hh_len⟩ := pad2_facts (c / 100) (by omega)
  obtain ⟨hl_d, hl_ne, hl_val, hl_len⟩ := pad2_facts (c % 100) (by omega)
  have hrest_ws : ∀ ch ∈ pad2 (c / 100) ++ '.' :: pad2 (c % 100), ch.isWhitespace = false := by
    intro ch hch
    rcases List.mem_append.mp hch with hA | hB
    · exact isDigit_not_ws (hh_d ch hA)
    · rcases List.mem_cons.mp hB with rfl | hB'
      · decide
      · exact isDigit_not_ws (hl_d ch hB')
  have hall_ws : ∀ ch ∈ formatTimestampCh x, ch.isWhitespace = false := by
    rw [hfmt]; intro ch hch
    rcases List.mem_append.mp hch with hA | hB
    · exact isDigit_not_ws (hmd ch hA)
    · rcases List.mem_cons.mp hB with rfl | hB'
      · decide
      · exact hrest_ws ch hB'
  have hnocolon_m : ':' ∉ natStr mn := fun hc =>
    absurd rfl (isDigit_ne_of_not (hmd ':' hc) (by decide))
  have hnocolon_r : ':' ∉ pad2 (c / 100) ++ '.' :: pad2 (c % 100) := by
    intro hc
    rcases List.mem_append.mp hc with hA | hB
    · exact absurd rfl (isDigit_ne_of_not (hh_d ':' hA) (by decide))
    · rcases List.mem_cons.mp hB with heq | hB'
      · exact absurd heq (by decide)
      · exact absurd rfl (isDigit_ne_of_not (hl_d ':' hB') (by decide))
  have hsplit2 : splitOnColon (formatTimestampCh x) =
      [natStr mn, pad2 (c / 100) ++ '.' :: pad2 (c % 100)] := by
    rw [hfmt, splitOnColon_append hnocolon_m, splitOnColon_no hnocolon_r]
  have hfl : pyFloatCh (formatTimestampCh x) = none := by
    rw [hfmt]; exact pyFloatCh_digit_colon hmd hmne hrest_ws
  have hparse : parse_timestamp (format_timestamp x) =
      some ((((mn : ℤ) : ℚ)) * 60 +
        ((natVal (pad2 (c / 100)) : ℚ) +
          (natVal (pad2 (c % 100)) : ℚ) / 10 ^ (pad2 (c % 100)).length)) := by
    show parseTimestampCh (formatTimestampCh x) = _
    exact parseTimestampCh_two_parts hall_ws hfl hsplit2 (pyIntCh_natStr mn hmn)
      (pyFloatCh_digits_dot hh_d hl_d hh_ne)
  refine ⟨_, hparse, ?_⟩
  rw [hh_val, hl_val, hl_len]
  have hsum : ((c / 100 : ℕ) : ℚ) + ((c % 100 : ℕ) : ℚ) / 10 ^ 2 = (c : ℚ) / 100 := by
    have hdm : (c : ℚ) = 100 * ((c / 100 : ℕ) : ℚ) + ((c % 100 : ℕ) : ℚ) := by
      exact_mod_cast (Nat.div_add_mod c 100).symm
    rw [hdm]; ring
  rw [hsum]
  have habs := rhe_abs_le (100 * (x - 60 * (⌊x / 60⌋ : ℚ)))
  rw [← hcI] at habs
  have hcQ : (c : ℚ) = ((cI : ℤ) : ℚ) := by exact_mod_cast congrArg (Int.cast : ℤ → ℚ) hcc
  have hmnQ : ((mn : ℤ) : ℚ) = ((⌊x / 60⌋ : ℤ) : ℚ) := by exact_mod_cast hmnc
  rw [abs_le] at habs ⊢
  constructor
  · rw [hmnQ, hcQ]; nlinarith [habs.1, habs.2]
  · rw [hmnQ, hcQ]; nlinarith [habs.1, habs.2]

/-- Witness for C7 at `x = 72.86`. -/
theorem parse_format_roundtrip_witness :
    0 ≤ (7286 / 100 : ℚ) ∧ (7286 / 100 : ℚ) < 3600 ∧
      ∃ y : ℚ, parse_timestamp (format_timestamp (7286 / 100)) = some y ∧
        |y - 7286 / 100| ≤ 1 / 100 :=
  ⟨by norm_num, by norm_num,
    parse_format_roundtrip (7286 / 100) (by norm_num) (by norm_num)⟩

/-! ## `transcriber.py` / `detector.py`: data types -/

/-- `TranscribedWord` (transcriber.py). `end_` stands for the Python field
`end` (a Lean keyword). -/
structure TranscribedWord where
  word : String
  start : ℚ
  end_ : ℚ
  confidence : ℚ := 1
deriving DecidableEq

/-- `ProfanityMatch` (detector.py). -/
structure ProfanityMatch where
  word : String
  original_word : String
  start : ℚ
  end_ : ℚ
  confidence : ℚ
deriving DecidableEq

/-! ## `detector.py`: `ProfanityDetector.detect` -/

/-- Python `p == w[0:len p]` — prefix test used to implement `in`. -/
def headMatches : List Char → List Char → Bool
  | [], _ => true
  | _ :: _, [] => false
  | a :: ps, b :: ws => a = b && headMatches ps ws

/-- Python substring containment `p in w` on character lists. -/
def containsSub (p : List Char) : List Char → Bool
  | [] => headMatches p []
  | b :: ws => headMatches p (b :: ws) || containsSub p ws

namespace ProfanityDetector

/-- The body of the per-word loop of `ProfanityDetector.detect`: the exact
normalized-membership check, then the containment scan with `break` after
the first hit (`List.find?`); the lexicon `set` iteration is modelled as a
list in iteration order. -/
def wordMatches (profanity_set : List String) (w : TranscribedWord) :
    List ProfanityMatch :=
  let normalized := normalize_word w.word
  if normalized ∈ profanity_set then
    [⟨normalized, w.word, w.start, w.end_, w.confidence⟩]
  else
    match profanity_set.find?
        (fun p => containsSub p.data normalized.data && decide (4 ≤ p.length)) with
    | some p => [⟨p, w.word, w.start, w.end_, w.confidence⟩]
    | none => []

/-- `ProfanityDetector.detect`: the `matches` accumulator loop. -/
def detect (profanity_set : List String) (words : List TranscribedWord) :
    List ProfanityMatch :=
  words.foldl (fun ms w => ms ++ wordMatches profanity_set w) []

lemma detect_foldl_acc (profanity_set : List String) (words : List TranscribedWord)
    (acc : List ProfanityMatch) :
    words.foldl (fun ms w => ms ++ wordMatches profanity_set w) acc =
      acc ++ words.foldl (fun ms w => ms ++ wordMatches profanity_set w) [] := by
  induction words generalizing acc with
  | nil => simp
  | cons w ws ih =>
    simp only [List.foldl_cons]
    rw [ih (acc ++ wordMatches profanity_set w), ih ([] ++ wordMatches profanity_set w)]
    simp

lemma detect_eq_flatten (profanity_set : List String) (words : List TranscribedWord) :
    detect profanity_set words = words.flatMap (wordMatches profanity_set) := by
  induction words with
  | nil => rfl
  | cons w ws ih =>
    unfold detect at ih ⊢
    simp only [List.foldl_cons, List.nil_append, List.flatMap_cons]
    rw [detect_foldl_acc, ih]

end ProfanityDetector

open ProfanityDetector in
/-- C6: `detect` emits at most one match per input word; an exact normalized
lexicon hit yields the normalized word as canonical; otherwise a match is
emitted iff some lexicon entry of length at least 4 is a substring of the
normalized word, and entries shorter than 4 never fire by containment. -/
theorem detect_matching_policy (lex : List String) (ws : List TranscribedWord) :
    detect lex ws = ws.flatMap (wordMatches lex) ∧
    ∀ w : TranscribedWord,
      (wordMatches lex w).length ≤ 1 ∧
      (normalize_word w.word ∈ lex →
        wordMatches lex w =
          [⟨normalize_word w.word, w.word, w.start, w.end_, w.confidence⟩]) ∧
      (normalize_word w.word ∉ lex →
        ((wordMatches lex w ≠ []) ↔
          ∃ p ∈ lex, containsSub p.data (normalize_word w.word).data = true ∧
            4 ≤ p.length) ∧
        ∀ m ∈ wordMatches lex w,
          m.word ∈ lex ∧ containsSub m.word.data (normalize_word w.word).data = true ∧
            4 ≤ m.word.length) := by
  refine ⟨detect_eq_flatten lex ws, fun w => ?_⟩
  by_cases hmem : normalize_word w.word ∈ lex
  · refine ⟨?_, fun _ => ?_, fun hn => absurd hmem hn⟩ <;>
      simp [wordMatches, hmem]
  · rcases hfind : lex.find?
        (fun p => containsSub p.data (normalize_word w.word).data &&
          decide (4 ≤ p.length)) with _ | p
    · have hw : wordMatches lex w = [] := by
        simp only [wordMatches, if_neg hmem, hfind]
      rw [List.find?_eq_none] at hfind
      refine ⟨by simp [hw], fun hmem' => absurd hmem' hmem, fun _ => ⟨?_, ?_⟩⟩
      · simp only [hw, ne_eq, not_true_eq_false, false_iff, not_exists]
        intro p hp
        obtain ⟨hpmem, hc, hlen⟩ := hp
        have hnp := hfind p hpmem
        simp only [Bool.and_eq_true, decide_eq_true_eq, not_and] at hnp
        exact absurd (hnp hc) (by simpa using hlen)
      · intro m hm; rw [hw] at hm; simp at hm
    · have hw : wordMatches lex w = [⟨p, w.word, w.start, w.end_, w.confidence⟩] := by
        simp only [wordMatches, if_neg hmem, hfind]
      have hp := List.find?_some hfind
      have hpmem := List.mem_of_find?_eq_some hfind
      simp only [Bool.and_eq_true, decide_eq_true_eq] at hp
      refine ⟨by simp [hw], fun hmem' => absurd hmem' hmem, fun _ => ⟨?_, ?_⟩⟩
      · simp only [hw, ne_eq, List.cons_ne_nil, not_false_eq_true, true_iff]
        exact ⟨p, hpmem, hp.1, hp.2⟩
      · intro m hm
        rw [hw, List.mem_singleton] at hm
        subst hm
        exact ⟨hpmem, hp.1, hp.2⟩

open ProfanityDetector in
/-- Witness for C6: the exact-match branch at a concrete lexicon and word. -/
theorem detect_matching_policy_witness :
    wordMatches ["fuck"] ⟨"Fuck!", 0, 1, 1⟩ = [⟨"fuck", "Fuck!", 0, 1, 1⟩] :=
  ((detect_matching_policy ["fuck"] []).2 ⟨"Fuck!", 0, 1, 1⟩).2.1 (by decide)

/-! ## `transcriber.py`: `parse_lyrics` -/

/-- `re.sub(r"\[.*?\]", "", text)`: remove each non-greedy bracketed
section (`.` does not match a newline, and an unmatched `[` is kept);
fuel-structured on the input length so it kernel-evaluates. -/
def stripSectionsAux : ℕ → List Char → List Char
  | 0, cs => cs
  | _ + 1, [] => []
  | fuel + 1, '[' :: rest =>
    let pre := rest.takeWhile (fun c => !(c = ']' || c = '\n'))
    match rest.drop pre.length with
    | ']' :: rest' => stripSectionsAux fuel rest'
    | _ => '[' :: stripSectionsAux fuel rest
  | fuel + 1, c :: rest => c :: stripSectionsAux fuel rest

def stripSections (cs : List Char) : List Char := stripSectionsAux (cs.length + 1) cs

/-- Python `str.split()` (split on whitespace runs, no empty parts). -/
def splitWsAux : ℕ → List Char → List (List Char)
  | 0, _ => []
  | _ + 1, [] => []
  | fuel + 1, cs =>
    let cs' := cs.dropWhile Char.isWhitespace
    match cs' with
    | [] => []
    | _ :: _ =>
      let w := cs'.takeWhile (fun c => !c.isWhitespace)
      w :: splitWsAux fuel (cs'.drop w.length)

def splitWs (cs : List Char) : List (List Char) := splitWsAux (cs.length + 1) cs

/-- `parse_lyrics` (transcriber.py): strip `[...]` section headers, split
on whitespace, keep the words that are non-blank after stripping. -/
def parse_lyrics (lyrics_text : String) : List String :=
  ((splitWs (stripSections lyrics_text.data)).filter
    (fun w => trimCh w ≠ [])).map (fun w => (⟨w⟩ : String))

/-! ## `difflib.SequenceMatcher` (stdlib collaborator of
`transcribe_with_context`), specialised to `SequenceMatcher(None, a, b)`:
no junk predicate, so the junk extension loops of `find_longest_match`
are no-ops, and the `autojunk` popularity filter applies only when
`len(b) >= 200`. -/

/-- `__chain_b`: map from an element of `b` to its ascending list of
indices in `b`. -/
def b2j (b : List String) (s : String) : List ℕ :=
  (b.enum.filter (fun p => p.2 = s)).map (fun p => p.1)

/-- `b2j` with the `autojunk` popularity filter. -/
def b2jA (b : List String) (s : String) : List ℕ :=
  let js := b2j b s
  if 200 ≤ b.length ∧ b.length / 100 + 1 < js.length then [] else js

/-- Inner loop of `find_longest_match`: walk the ascending index list of
`b2j[a[i]]`, skipping `j < blo` (`continue`) and stopping at `j >= bhi`
(`break`), building `newj2len` and updating the running best match. -/
def flmJs (j2len : ℕ → ℕ) (blo bhi i : ℕ) :
    List ℕ → (ℕ → ℕ) → (ℕ × ℕ × ℕ) → ((ℕ → ℕ) × (ℕ × ℕ × ℕ))
  | [], newj2len, best => (newj2len, best)
  | j :: js, newj2len, best =>
    if j < blo then flmJs j2len blo bhi i js newj2len best
    else if bhi ≤ j then (newj2len, best)
    else
      let k := (if j = 0 then 0 else j2len (j - 1)) + 1
      let newj2len' := fun j' => if j' = j then k else newj2len j'
      let best' := if best.2.2 < k then (i + 1 - k, j + 1 - k, k) else best
      flmJs j2len blo bhi i js newj2len' best'

/-- Left extension loop of `find_longest_match` over equal elements
(fuel-structured: `besti` decreases each step). -/
def extLeft (a b : List String) (alo blo : ℕ) : ℕ → (ℕ × ℕ × ℕ) → (ℕ × ℕ × ℕ)
  | 0, st => st
  | fuel + 1, (bi, bj, bs) =>
    if alo < bi ∧ blo < bj ∧ a.getD (bi - 1) "" = b.getD (bj - 1) "" then
      extLeft a b alo blo fuel (bi - 1, bj - 1, bs + 1)
    else (bi, bj, bs)

/-- Right extension loop of `find_longest_match`. -/
def extRight (a b : List String) (ahi bhi : ℕ) : ℕ → (ℕ × ℕ × ℕ) → (ℕ × ℕ × ℕ)
  | 0, st => st
  | fuel + 1, (bi, bj, bs) =>
    if bi + bs < ahi ∧ bj + bs < bhi ∧ a.getD (bi + bs) "" = b.getD (bj + bs) "" then
      extRight a b ahi bhi fuel (bi, bj, bs + 1)
    else (bi, bj, bs)

/-- `SequenceMatcher.find_longest_match` on `a[alo:ahi]` vs `b[blo:bhi]`. -/
def find_longest_match (a b : List String) (alo ahi blo bhi : ℕ) : ℕ × ℕ × ℕ :=
  let step := fun (st : (ℕ → ℕ) × (ℕ × ℕ × ℕ)) (i : ℕ) =>
    flmJs st.1 blo bhi i (b2jA b (a.getD i "")) (fun _ => 0) st.2
  let res := (List.range' alo (ahi - alo)).foldl step ((fun _ => 0), (alo, blo, 0))
  let best := extLeft a b alo blo res.2.1 res.2
  extRight a b ahi bhi ahi best

/-- `get_matching_blocks` queue loop (Python uses the list as a stack:
`pop()` from and `append` to the end); fuel `la + lb + 1` bounds the
iteration count because the total size of queued ranges strictly
decreases. -/
def gmbLoop (a b : List String) :
    ℕ → List (ℕ × ℕ × ℕ × ℕ) → List (ℕ × ℕ × ℕ) → List (ℕ × ℕ × ℕ)
  | 0, _, acc => acc
  | _ + 1, [], acc => acc
  | fuel + 1, (alo, ahi, blo, bhi) :: queue, acc =>
    let m := find_longest_match a b alo ahi blo bhi
    let i := m.1
    let j := m.2.1
    let k := m.2.2
    if k ≠ 0 then
      let q1 := if alo < i ∧ blo < j then (alo, i, blo, j) :: queue else queue
      let q2 := if i + k < ahi ∧ j + k < bhi then (i + k, ahi, j + k, bhi) :: q1 else q1
      gmbLoop a b fuel q2 (acc ++ [(i, j, k)])
    else gmbLoop a b fuel queue acc

/-- Lexicographic order on matching-block triples (`list.sort()`). -/
def blockLe (x y : ℕ × ℕ × ℕ) : Bool :=
  x.1 < y.1 || (x.1 = y.1 && (x.2.1 < y.2.1 || (x.2.1 = y.2.1 && x.2.2 ≤ y.2.2)))

/-- The adjacent-block merge pass of `get_matching_blocks`. -/
def mergeBlocks : (ℕ × ℕ × ℕ) → List (ℕ × ℕ × ℕ) → List (ℕ × ℕ × ℕ)
  | (i1, j1, k1), [] => if k1 ≠ 0 then [(i1, j1, k1)] else []
  | (i1, j1, k1), (i2, j2, k2) :: rest =>
    if i1 + k1 = i2 ∧ j1 + k1 = j2 then mergeBlocks (i1, j1, k1 + k2) rest
    else if k1 ≠ 0 then (i1, j1, k1) :: mergeBlocks (i2, j2, k2) rest
    else mergeBlocks (i2, j2, k2) rest

/-- `SequenceMatcher.get_matching_blocks` (ending with the
`(la, lb, 0)` sentinel). -/
def get_matching_blocks (a b : List String) : List (ℕ × ℕ × ℕ) :=
  let blocks := gmbLoop a b (a.length + b.length + 1) [(0, a.length, 0, b.length)] []
  let sorted := List.insertionSort (fun x y => blockLe x y = true) blocks
  mergeBlocks (0, 0, 0) sorted ++ [(a.length, b.length, 0)]

/-- Opcode tags of `get_opcodes`. -/
inductive OpTag
  | equal
  | replace
  | insert
  | delete
deriving DecidableEq

/-- One opcode `(tag, i1, i2, j1, j2)`. -/
structure Op where
  tag : OpTag
  i1 : ℕ
  i2 : ℕ
  j1 : ℕ
  j2 : ℕ
deriving DecidableEq

/-- The loop of `get_opcodes`. -/
def opsGo : ℕ → ℕ → List (ℕ × ℕ × ℕ) → List Op
  | _, _, [] => []
  | i, j, (ai, bj, size) :: rest =>
    let pre : List Op :=
      if i < ai ∧ j < bj then [⟨.replace, i, ai, j, bj⟩]
      else if i < ai then [⟨.delete, i, ai, j, bj⟩]
      else if j < bj then [⟨.insert, i, ai, j, bj⟩]
      else []
    let eqOps : List Op := if size ≠ 0 then [⟨.equal, ai, ai + size, bj, bj + size⟩] else []
    pre ++ eqOps ++ opsGo (ai + size) (bj + size) rest

/-- `SequenceMatcher.get_opcodes`. -/
def get_opcodes (a b : List String) : List Op := opsGo 0 0 (get_matching_blocks a b)

/-! ## `transcriber.py`: `transcribe_with_context` alignment -/

/-- The `equal` branch loop: reference spelling with transcript timing for
each zipped index pair. -/
def equalEmit (tws : List TranscribedWord) (refs : List String) :
    List (ℕ × ℕ) → List TranscribedWord
  | [] => []
  | (t, r) :: ps =>
    let tw := tws.getD t ⟨"", 0, 0, 1⟩
    ⟨refs.getD r "", tw.start, tw.end_, tw.confidence⟩ :: equalEmit tws refs ps

/-- The `replace` branch loop: interpolated timestamps across the
reference slice (`m = len(r_words_slice)`), confidence 0.5. -/
def replaceEmit (st dur : ℚ) (m : ℕ) : ℕ → List String → List TranscribedWord
  | _, [] => []
  | idx, w :: ws' =>
    ⟨w, st + dur * idx / m, st + dur * (idx + 1) / m, 1 / 2⟩ ::
      replaceEmit st dur m (idx + 1) ws'

/-- The `insert` branch loop: ~0.3s per word chained from `last_end`,
confidence 0.3. -/
def insertEmit (lastEnd : ℚ) : ℕ → List String → List TranscribedWord
  | _, [] => []
  | idx, w :: ws' =>
    ⟨w, lastEnd + idx * (3 / 10), lastEnd + (idx + 1) * (3 / 10), 3 / 10⟩ ::
      insertEmit lastEnd (idx + 1) ws'

namespace Transcriber

/-- One iteration of the opcode loop of `transcribe_with_context`:
`equal` pairs indices, `replace` interpolates (guarded by `if t_words:`),
`insert` chains from the previous emitted word (guarded by
`if aligned_words:`), `delete` emits nothing. -/
def alignStep (tws : List TranscribedWord) (refs : List String)
    (acc : List TranscribedWord) (op : Op) : List TranscribedWord :=
  match op.tag with
  | .equal =>
    acc ++ equalEmit tws refs
      ((List.range' op.i1 (op.i2 - op.i1)).zip (List.range' op.j1 (op.j2 - op.j1)))
  | .replace =>
    match (tws.drop op.i1).take (op.i2 - op.i1) with
    | [] => acc
    | t0 :: trest =>
      let rW := (refs.drop op.j1).take (op.j2 - op.j1)
      let start_time := t0.start
      let end_time := ((t0 :: trest).getLast (by simp)).end_
      acc ++ replaceEmit start_time (end_time - start_time) rW.length 0 rW
  | .insert =>
    match acc with
    | [] => acc
    | a0 :: arest =>
      let last_end := ((a0 :: arest).getLast (by simp)).end_
      (a0 :: arest) ++ insertEmit last_end 0 ((refs.drop op.j1).take (op.j2 - op.j1))
  | .delete => acc

/-- `Transcriber.transcribe_with_context`, with the external Whisper
transcription supplied as `transcribed_words` (the collaborator's output)
and the reconciliation translated from the opcode loop. `none` or the
empty string for `reference_lyrics` return the transcription unchanged
(`if not reference_lyrics`). -/
def transcribe_with_context (transcribed_words : List TranscribedWord)
    (reference_lyrics : Option String) : List TranscribedWord :=
  match reference_lyrics with
  | none => transcribed_words
  | some s =>
    if s = "" then transcribed_words
    else
      let ref_words := parse_lyrics s
      let tN := transcribed_words.map (fun w => normalize_word w.word)
      let rN := ref_words.map normalize_word
      (get_opcodes tN rN).foldl (alignStep transcribed_words ref_words) []

end Transcriber

example : parse_lyrics "damn" = ["damn"] := by decide
example : get_opcodes [] ["damn"] = [⟨.insert, 0, 0, 0, 1⟩] := by decide
example : get_opcodes ["a", "b"] ["a", "x", "y", "z", "b"] =
    [⟨.equal, 0, 1, 0, 1⟩, ⟨.insert, 1, 1, 1, 4⟩, ⟨.equal, 1, 2, 4, 5⟩] := by decide

lemma gmbLoop_nil (a b : List String) (fuel : ℕ) (acc : List (ℕ × ℕ × ℕ)) :
    gmbLoop a b fuel [] acc = acc := by cases fuel <;> rfl

lemma flm_empty_a (b : List String) (lb : ℕ) :
    find_longest_match [] b 0 0 0 lb = (0, 0, 0) := by
  unfold find_longest_match
  simp [extLeft, extRight]

lemma get_matching_blocks_empty_a (b : List String) :
    get_matching_blocks [] b = [(0, b.length, 0)] := by
  unfold get_matching_blocks
  simp only [List.length_nil, Nat.zero_add]
  have h2 : gmbLoop [] b (b.length + 1) [(0, 0, 0, b.length)] [] = [] := by
    rw [gmbLoop]
    simp [flm_empty_a, gmbLoop_nil]
  rw [h2]
  simp [mergeBlocks, List.insertionSort]

/-- C2 (amended): reconciling any reference lyrics against an empty
transcript yields the empty output — the `insert` branch is guarded by
`if aligned_words:`, so with no previously emitted word every insert run
is dropped (no word is anchored at time 0). -/
theorem reconcile_empty_transcript (s : String) :
    Transcriber.transcribe_with_context [] (some s) = [] := by
  rcases eq_or_ne s "" with rfl | hs
  · rfl
  · simp only [Transcriber.transcribe_with_context]
    rw [if_neg hs]
    simp only [List.map_nil]
    rw [get_opcodes, get_matching_blocks_empty_a]
    rcases hn : ((parse_lyrics s).map normalize_word).length with _ | n
    · simp [hn, opsGo]
    · simp [hn, opsGo, Transcriber.alignStep]

/-- C2 counterexample: the reference `"damn"` is non-empty, yet
reconciling it against the empty transcript produces no output words at
all (the claim requires one inserted timed word per reference word,
anchored at 0). -/
theorem reconcile_empty_transcript_cex :
    parse_lyrics "damn" ≠ [] ∧
      Transcriber.transcribe_with_context [] (some "damn") = [] := by
  constructor
  · decide
  · decide

/-! Emission-run lemmas for the alignment branches. -/

lemma insertEmit_chain (le : ℚ) (idx : ℕ) (ws : List String) :
    List.Chain' (fun u v : TranscribedWord => u.end_ = v.start) (insertEmit le idx ws) := by
  induction ws generalizing idx with
  | nil => simp [insertEmit]
  | cons w ws' ih =>
    cases ws' with
    | nil => simp [insertEmit]
    | cons w2 ws'' =>
      rw [insertEmit, insertEmit]
      refine List.Chain'.cons ?_ ?_
      · show le + ((idx : ℚ) + 1) * (3 / 10) = le + (↑(idx + 1) : ℚ) * (3 / 10)
        push_cast
        ring
      · rw [← insertEmit]
        exact ih (idx + 1)

lemma insertEmit_duration (le : ℚ) (idx : ℕ) (ws : List String) :
    ∀ w ∈ insertEmit le idx ws, w.end_ - w.start = 3 / 10 ∧ w.confidence = 3 / 10 := by
  induction ws generalizing idx with
  | nil => simp [insertEmit]
  | cons w ws' ih =>
    intro u hu
    rw [insertEmit] at hu
    rcases List.mem_cons.mp hu with rfl | hu'
    · refine ⟨?_, rfl⟩
      show le + ((idx : ℚ) + 1) * (3 / 10) - (le + (idx : ℚ) * (3 / 10)) = 3 / 10
      ring
    · exact ih (idx + 1) u hu'

lemma insertEmit_head (le : ℚ) (ws : List String) (w : TranscribedWord)
    (h : (insertEmit le 0 ws).head? = some w) : w.start = le := by
  cases ws with
  | nil => simp [insertEmit] at h
  | cons a ws' =>
    rw [insertEmit] at h
    simp only [List.head?_cons, Option.some.injEq] at h
    subst h
    show le + ((0 : ℕ) : ℚ) * (3 / 10) = le
    push_cast
    ring

lemma replaceEmit_chain (st dur : ℚ) (m idx : ℕ) (ws : List String) :
    List.Chain' (fun u v : TranscribedWord => u.end_ = v.start)
      (replaceEmit st dur m idx ws) := by
  induction ws generalizing idx with
  | nil => simp [replaceEmit]
  | cons w ws' ih =>
    cases ws' with
    | nil => simp [replaceEmit]
    | cons w2 ws'' =>
      rw [replaceEmit, replaceEmit]
      refine List.Chain'.cons ?_ ?_
      · show st + dur * ((idx : ℚ) + 1) / m = st + dur * (↑(idx + 1) : ℚ) / m
        push_cast
        ring
      · rw [← replaceEmit]
        exact ih (idx + 1)

lemma replaceEmit_wf (st dur : ℚ) (hd : 0 ≤ dur) (m idx : ℕ) (ws : List String) :
    ∀ w ∈ replaceEmit st dur m idx ws, w.start ≤ w.end_ := by
  induction ws generalizing idx with
  | nil => simp [replaceEmit]
  | cons w ws' ih =>
    intro u hu
    rw [replaceEmit] at hu
    rcases List.mem_cons.mp hu with rfl | hu'
    · show st + dur * (idx : ℚ) / m ≤ st + dur * ((idx : ℚ) + 1) / m
      rcases Nat.eq_zero_or_pos m with rfl | hm
      · push_cast
        rw [div_zero, div_zero]
      · have hm' : (0 : ℚ) < m := by exact_mod_cast hm
        have h1 : dur * (idx : ℚ) ≤ dur * ((idx : ℚ) + 1) := by nlinarith
        have h2 := (div_le_div_iff_of_pos_right hm').mpr h1
        linarith
    · exact ih (idx + 1) u hu'

lemma insertEmit_wf (le : ℚ) (idx : ℕ) (ws : List String) :
    ∀ w ∈ insertEmit le idx ws, w.start ≤ w.end_ := by
  intro u hu
  have h := (insertEmit_duration le idx ws u hu).1
  linarith

lemma replaceEmit_head (st dur : ℚ) (m : ℕ) (ws : List String) (w : TranscribedWord)
    (h : (replaceEmit st dur m 0 ws).head? = some w) : w.start = st := by
  cases ws with
  | nil => simp [replaceEmit] at h
  | cons a ws' =>
    rw [replaceEmit] at h
    simp only [List.head?_cons, Option.some.injEq] at h
    subst h
    show st + dur * ((0 : ℕ) : ℚ) / m = st
    push_cast
    ring

lemma replaceEmit_getLast (st dur : ℚ) (m : ℕ) : ∀ (ws : List String) (idx : ℕ)
    (w : TranscribedWord), (replaceEmit st dur m idx ws).getLast? = some w →
    w.end_ = st + dur * ((idx : ℚ) + ws.length) / m := by
  intro ws
  induction ws with
  | nil => intro idx w h; simp [replaceEmit] at h
  | cons a ws' ih =>
    intro idx w h
    rw [replaceEmit] at h
    cases ws' with
    | nil =>
      simp only [replaceEmit, List.getLast?_singleton, Option.some.injEq] at h
      subst h
      show st + dur * ((idx : ℚ) + 1) / m = _
      simp only [List.length_cons, List.length_nil]
      push_cast
      ring
    | cons b ws'' =>
      rw [replaceEmit] at h
      rw [List.getLast?_cons_cons] at h
      have := ih (idx + 1) w (by rw [replaceEmit]; exact h)
      rw [this]
      simp only [List.length_cons]
      push_cast
      ring

lemma getLast?_cons_of_ne_nil {α : Type} {l : List α} (h : l ≠ []) (a : α) :
    (a :: l).getLast? = l.getLast? := by
  cases l with
  | nil => exact absurd rfl h
  | cons b t => exact List.getLast?_cons_cons

lemma replaceEmit_length (st dur : ℚ) (m : ℕ) : ∀ (idx : ℕ) (ws : List String),
    (replaceEmit st dur m idx ws).length = ws.length := by
  intro idx ws
  induction ws generalizing idx with
  | nil => rfl
  | cons a t ih => rw [replaceEmit]; simp [ih (idx + 1)]

lemma insertEmit_length (le : ℚ) : ∀ (idx : ℕ) (ws : List String),
    (insertEmit le idx ws).length = ws.length := by
  intro idx ws
  induction ws generalizing idx with
  | nil => rfl
  | cons a t ih => rw [insertEmit]; simp [ih (idx + 1)]

/-! Validity of an opcode sequence: exactly the structural guarantees
`SequenceMatcher.get_opcodes` documents — opcodes tile `[0, la) × [0, lb)`
contiguously and each tag constrains its index ranges. -/

/-- Per-tag index constraints of a `get_opcodes` opcode. -/
def tagOK (op : Op) : Prop :=
  match op.tag with
  | .equal => op.i1 < op.i2 ∧ op.i2 - op.i1 = op.j2 - op.j1
  | .replace => op.i1 < op.i2 ∧ op.j1 < op.j2
  | .insert => op.i1 = op.i2 ∧ op.j1 < op.j2
  | .delete => op.i1 < op.i2 ∧ op.j1 = op.j2

/-- The opcodes tile both sequences contiguously from `(i, j)` to
`(la, lb)`. -/
def ValidFrom (la lb : ℕ) : ℕ → ℕ → List Op → Prop
  | i, j, [] => i = la ∧ j = lb
  | i, j, op :: rest =>
    op.i1 = i ∧ op.j1 = j ∧ op.i2 ≤ la ∧ op.j2 ≤ lb ∧ tagOK op ∧
      ValidFrom la lb op.i2 op.j2 rest

/-- No `insert` opcode except possibly in final position. -/
def insertOnlyLast (ops : List Op) : Prop :=
  ∀ op ∈ ops.dropLast, op.tag ≠ .insert



lemma getD_eq_of_lt {l : List TranscribedWord} {t : ℕ} (h : t < l.length)
    (d : TranscribedWord) : l.getD t d = l.get ⟨t, h⟩ := by
  simp [List.getD_eq_getElem?_getD, List.getElem?_eq_getElem h]

section TranscriptFacts

variable {tws : List TranscribedWord}

/-- Shorthand for the default used by `equalEmit`. -/
def twD (tws : List TranscribedWord) (t : ℕ) : TranscribedWord :=
  tws.getD t ⟨"", 0, 0, 1⟩

lemma twD_wf (hwf : ∀ w ∈ tws, w.start ≤ w.end_) {t : ℕ} (h : t < tws.length) :
    (twD tws t).start ≤ (twD tws t).end_ := by
  rw [twD, getD_eq_of_lt h]
  exact hwf _ (tws.get_mem _ _)

lemma twD_chain (hch : List.Chain' (fun u v => u.end_ ≤ v.start) tws) {t : ℕ}
    (h : t + 1 < tws.length) :
    (twD tws t).end_ ≤ (twD tws (t + 1)).start := by
  rw [twD, twD, getD_eq_of_lt (by omega), getD_eq_of_lt h]
  exact List.chain'_iff_get.mp hch t (by omega)

lemma twD_start_mono (hwf : ∀ w ∈ tws, w.start ≤ w.end_)
    (hch : List.Chain' (fun u v => u.end_ ≤ v.start) tws) :
    ∀ {t u : ℕ}, t ≤ u → u < tws.length →
      (twD tws t).start ≤ (twD tws u).start := by
  intro t u hle hu
  induction u with
  | zero =>
    obtain rfl : t = 0 := by omega
    exact le_refl _
  | succ n ih =>
    rcases Nat.lt_or_ge t (n + 1) with hlt | hge
    · calc (twD tws t).start ≤ (twD tws n).start := ih (by omega) (by omega)
        _ ≤ (twD tws n).end_ := twD_wf hwf (by omega)
        _ ≤ (twD tws (n + 1)).start := twD_chain hch hu
    · obtain rfl : t = n + 1 := by omega
      exact le_refl _

lemma twD_end_le_start (hwf : ∀ w ∈ tws, w.start ≤ w.end_)
    (hch : List.Chain' (fun u v => u.end_ ≤ v.start) tws) :
    ∀ {t u : ℕ}, t < u → u < tws.length →
      (twD tws t).end_ ≤ (twD tws u).start := by
  intro t u hlt hu
  calc (twD tws t).end_ ≤ (twD tws (t + 1)).start := twD_chain hch (by omega)
    _ ≤ (twD tws u).start := twD_start_mono hwf hch (by omega) hu

end TranscriptFacts

lemma equalEmit_run (tws : List TranscribedWord) (refs : List String)
    (hwfD : ∀ t, t < tws.length →
      (twD tws t).start ≤ (twD tws t).end_)
    (hchD : ∀ t, t + 1 < tws.length →
      (twD tws t).end_ ≤ (twD tws (t + 1)).start) :
    ∀ (n i j : ℕ), i + n ≤ tws.length →
      (equalEmit tws refs ((List.range' i n).zip (List.range' j n))).length = n ∧
      (∀ w ∈ equalEmit tws refs ((List.range' i n).zip (List.range' j n)),
        w.start ≤ w.end_) ∧
      List.Chain' (fun u v => u.end_ ≤ v.start)
        (equalEmit tws refs ((List.range' i n).zip (List.range' j n))) ∧
      (∀ w, (equalEmit tws refs ((List.range' i n).zip (List.range' j n))).head? = some w →
        w.start = (twD tws i).start) ∧
      (∀ w, (equalEmit tws refs ((List.range' i n).zip (List.range' j n))).getLast? = some w →
        w.end_ = (twD tws (i + n - 1)).end_) := by
  intro n
  induction n with
  | zero => intro i j hle; simp [equalEmit]
  | succ n ih =>
    intro i j hle
    rw [List.range'_succ, List.range'_succ, List.zip_cons_cons, equalEmit]
    obtain ⟨ihlen, ihwf, ihch, ihhd, ihlast⟩ := ih (i + 1) (j + 1) (by omega)
    have hi : i < tws.length := by omega
    refine ⟨by simp [ihlen], ?_, ?_, ?_, ?_⟩
    · intro w hw
      rcases List.mem_cons.mp hw with rfl | hw'
      · exact hwfD i hi
      · exact ihwf w hw'
    · rw [List.chain'_cons']
      refine ⟨?_, ihch⟩
      intro b hb
      have hbst := ihhd b hb
      show (twD tws i).end_ ≤ b.start
      rw [hbst]
      rcases Nat.eq_zero_or_pos n with rfl | hn
      · simp [equalEmit] at hb
      · exact hchD i (by omega)
    · intro w hw
      simp only [List.head?_cons, Option.some.injEq] at hw
      subst hw
      rfl
    · intro w hw
      rcases Nat.eq_zero_or_pos n with rfl | hn
      · simp only [List.range'_zero, List.zip_nil_left, equalEmit,
          List.getLast?_singleton, Option.some.injEq] at hw
        subst hw
        simp [twD]
      · have hne : equalEmit tws refs
            ((List.range' (i + 1) n).zip (List.range' (j + 1) n)) ≠ [] := by
          intro hco
          rw [hco] at ihlen
          simp at ihlen
          omega
        rw [getLast?_cons_of_ne_nil hne] at hw
        have hend := ihlast w hw
        have harg : i + 1 + n - 1 = i + (n + 1) - 1 := by omega
        rw [hend, harg]


lemma slice_head_last (tws : List TranscribedWord) {i1 i2 : ℕ} (h1 : i1 < i2)
    (h2 : i2 ≤ tws.length) {t0 : TranscribedWord} {trest : List TranscribedWord}
    (hsl : (tws.drop i1).take (i2 - i1) = t0 :: trest) :
    t0.start = (twD tws i1).start ∧
    ∀ hne : (t0 :: trest : List TranscribedWord) ≠ [],
      ((t0 :: trest).getLast hne).end_ = (twD tws (i2 - 1)).end_ := by
  have hslen : ((tws.drop i1).take (i2 - i1)).length = i2 - i1 := by
    simp only [List.length_take, List.length_drop]
    omega
  have hlt0 : 0 < ((tws.drop i1).take (i2 - i1)).length := by omega
  have hget0 : ((tws.drop i1).take (i2 - i1)).get ⟨0, hlt0⟩ = tws.get ⟨i1, by omega⟩ := by
    simp only [List.get_eq_getElem]
    rw [List.getElem_take, List.getElem_drop]
    simp
  have ht0 : t0 = tws.get ⟨i1, by omega⟩ := by
    rw [← hget0]
    simp [hsl]
  have hlast : ∀ hne : (t0 :: trest : List TranscribedWord) ≠ [],
      (t0 :: trest).getLast hne = tws.get ⟨i2 - 1, by omega⟩ := by
    intro hne
    have h3 : (t0 :: trest).getLast hne =
        ((tws.drop i1).take (i2 - i1)).getLast (by rw [hsl]; simp) := by
      congr 1
      · exact hsl.symm
    rw [h3, List.getLast_eq_getElem]
    have hidx : ((tws.drop i1).take (i2 - i1)).length - 1 = i2 - i1 - 1 := by omega
    simp only [List.get_eq_getElem]
    rw [List.getElem_take, List.getElem_drop]
    congr 1
    omega
  have htwd1 : twD tws i1 = tws.get ⟨i1, by omega⟩ := by
    rw [twD, getD_eq_of_lt (by omega)]
  have htwd2 : twD tws (i2 - 1) = tws.get ⟨i2 - 1, by omega⟩ := by
    rw [twD, getD_eq_of_lt (by omega)]
  refine ⟨?_, ?_⟩
  · rw [ht0, htwd1]
  · intro hne
    rw [hlast hne, htwd2]

lemma insertOnlyLast_tail {op : Op} {rest : List Op} (h : insertOnlyLast (op :: rest)) :
    insertOnlyLast rest := by
  intro o ho
  apply h
  cases rest with
  | nil => simp at ho
  | cons r rs => exact List.mem_cons_of_mem _ ho

lemma align_monotone_aux (tws : List TranscribedWord) (refs : List String)
    (hwf : ∀ w ∈ tws, w.start ≤ w.end_)
    (hch : List.Chain' (fun u v => u.end_ ≤ v.start) tws) :
    ∀ (ops : List Op) (i j : ℕ) (acc : List TranscribedWord),
      ValidFrom tws.length refs.length i j ops →
      insertOnlyLast ops →
      (∀ w ∈ acc, w.start ≤ w.end_) →
      List.Chain' (fun u v => u.end_ ≤ v.start) acc →
      (∀ w, acc.getLast? = some w → ∀ _ : i < tws.length,
        w.end_ ≤ (twD tws i).start) →
      (∀ w ∈ ops.foldl (Transcriber.alignStep tws refs) acc, w.start ≤ w.end_) ∧
      List.Chain' (fun u v => u.end_ ≤ v.start)
        (ops.foldl (Transcriber.alignStep tws refs) acc) := by
  intro ops
  induction ops with
  | nil =>
    intro i j acc _ _ haccwf haccch _
    simpa using ⟨haccwf, haccch⟩
  | cons op rest ih =>
    intro i0 j0 acc hv hins haccwf haccch hinv
    obtain ⟨tag, i, i2, j, j2⟩ := op
    obtain ⟨hi1, hj1, hi2le, hj2le, htag, hvrest⟩ := hv
    dsimp only at hi1 hj1 hi2le hj2le
    subst hi1
    subst hj1
    have hins' : insertOnlyLast rest := insertOnlyLast_tail hins
    rw [List.foldl_cons]
    cases tag with
    | delete =>
      obtain ⟨hii2, -⟩ : i < i2 ∧ j = j2 := htag
      have hstep : Transcriber.alignStep tws refs acc ⟨.delete, i, i2, j, j2⟩ = acc := rfl
      rw [hstep]
      refine ih i2 j2 acc hvrest hins' haccwf haccch ?_
      intro w hw hi2
      calc w.end_ ≤ (twD tws i).start := hinv w hw (by omega)
        _ ≤ (twD tws i2).start := twD_start_mono hwf hch (by omega) hi2
    | equal =>
      obtain ⟨hii2, hnn⟩ : i < i2 ∧ i2 - i = j2 - j := htag
      have hstep : Transcriber.alignStep tws refs acc ⟨.equal, i, i2, j, j2⟩ =
          acc ++ equalEmit tws refs
            ((List.range' i (i2 - i)).zip (List.range' j (i2 - i))) := by
        show acc ++ equalEmit tws refs
            ((List.range' i (i2 - i)).zip (List.range' j (j2 - j))) = _
        rw [hnn]
      rw [hstep]
      obtain ⟨helen, hewf, hech, hehd, helast⟩ :=
        equalEmit_run tws refs (fun t ht => twD_wf hwf ht) (fun t ht => twD_chain hch ht)
          (i2 - i) i j (by omega)
      have hne : equalEmit tws refs
          ((List.range' i (i2 - i)).zip (List.range' j (i2 - i))) ≠ [] := by
        intro hco
        rw [hco] at helen
        simp at helen
        omega
      refine ih i2 j2 _ hvrest hins' ?_ ?_ ?_
      · intro w hw
        rcases List.mem_append.mp hw with h1 | h2
        · exact haccwf w h1
        · exact hewf w h2
      · rw [List.chain'_append]
        refine ⟨haccch, hech, ?_⟩
        intro x hx y hy
        rw [hehd y hy]
        exact hinv x hx (by omega)
      · intro w hw hi2
        rw [List.getLast?_append_of_ne_nil _ hne] at hw
        have hend := helast w hw
        have hidx : i + (i2 - i) - 1 = i2 - 1 := by omega
        rw [hidx] at hend
        rw [hend]
        exact twD_end_le_start hwf hch (by omega) hi2
    | replace =>
      obtain ⟨hii2, hjj2⟩ : i < i2 ∧ j < j2 := htag
      have hslen : ((tws.drop i).take (i2 - i)).length = i2 - i := by
        simp only [List.length_take, List.length_drop]
        omega
      rcases hsl : (tws.drop i).take (i2 - i) with _ | ⟨t0, trest⟩
      · rw [hsl] at hslen
        simp at hslen
        omega
      · obtain ⟨ht0, hlastsl⟩ := slice_head_last tws hii2 hi2le hsl
        have hstep : Transcriber.alignStep tws refs acc ⟨.replace, i, i2, j, j2⟩ =
            acc ++ replaceEmit t0.start
              (((t0 :: trest).getLast (by simp)).end_ - t0.start)
              ((refs.drop j).take (j2 - j)).length 0 ((refs.drop j).take (j2 - j)) := by
          simp only [Transcriber.alignStep, hsl]
        rw [hstep]
        have hmlen : ((refs.drop j).take (j2 - j)).length = j2 - j := by
          simp only [List.length_take, List.length_drop]
          omega
        have hmpos : 0 < ((refs.drop j).take (j2 - j)).length := by omega
        have hrne : (refs.drop j).take (j2 - j) ≠ [] := by
          intro hco
          rw [hco] at hmlen
          simp at hmlen
          omega
        have hdur : 0 ≤ ((t0 :: trest).getLast (by simp)).end_ - t0.start := by
          rw [hlastsl (by simp), ht0]
          have h1 : (twD tws i).start ≤ (twD tws (i2 - 1)).start :=
            twD_start_mono hwf hch (by omega) (by omega)
          have h2 : (twD tws (i2 - 1)).start ≤ (twD tws (i2 - 1)).end_ :=
            twD_wf hwf (by omega)
          linarith
        have hrene : replaceEmit t0.start
            (((t0 :: trest).getLast (by simp)).end_ - t0.start)
            ((refs.drop j).take (j2 - j)).length 0 ((refs.drop j).take (j2 - j)) ≠ [] := by
          intro hco
          have := replaceEmit_length t0.start
            (((t0 :: trest).getLast (by simp)).end_ - t0.start)
            ((refs.drop j).take (j2 - j)).length 0 ((refs.drop j).take (j2 - j))
          rw [hco] at this
          simp at this
          omega
        refine ih i2 j2 _ hvrest hins' ?_ ?_ ?_
        · intro w hw
          rcases List.mem_append.mp hw with h1 | h2
          · exact haccwf w h1
          · exact replaceEmit_wf _ _ hdur _ _ _ w h2
        · rw [List.chain'_append]
          refine ⟨haccch, (replaceEmit_chain _ _ _ _ _).imp (fun a b hab => le_of_eq hab), ?_⟩
          intro x hx y hy
          rw [replaceEmit_head _ _ _ _ y hy, ht0]
          exact hinv x hx (by omega)
        · intro w hw hi2
          rw [List.getLast?_append_of_ne_nil _ hrene] at hw
          have hend := replaceEmit_getLast _ _ _ _ _ w hw
          have hm0 : ((((refs.drop j).take (j2 - j)).length : ℕ) : ℚ) ≠ 0 := by
            have : (0 : ℕ) < ((refs.drop j).take (j2 - j)).length := hmpos
            positivity
          have hsimp : t0.start + (((t0 :: trest).getLast (by simp)).end_ - t0.start) *
              (((0 : ℕ) : ℚ) + (((refs.drop j).take (j2 - j)).length : ℚ)) /
              (((refs.drop j).take (j2 - j)).length : ℚ) =
              ((t0 :: trest).getLast (by simp)).end_ := by
            rw [show (((0 : ℕ) : ℚ) + (((refs.drop j).take (j2 - j)).length : ℚ)) =
                (((refs.drop j).take (j2 - j)).length : ℚ) by push_cast; ring,
              mul_div_assoc, div_self hm0, mul_one]
            ring
          rw [hend, hsimp, hlastsl (by simp)]
          exact twD_end_le_start hwf hch (by omega) hi2
    | insert =>
      obtain ⟨hii2, hjj2⟩ : i = i2 ∧ j < j2 := htag
      cases rest with
      | cons r rs =>
        exfalso
        have hmem : (⟨.insert, i, i2, j, j2⟩ : Op) ∈
            ((⟨.insert, i, i2, j, j2⟩ : Op) :: r :: rs).dropLast := by
          show _ ∈ (⟨.insert, i, i2, j, j2⟩ : Op) :: (r :: rs).dropLast
          exact List.mem_cons_self _ _
        exact hins _ hmem rfl
      | nil =>
        simp only [List.foldl_nil]
        cases acc with
        | nil => refine ⟨?_, ?_⟩ <;> simp [Transcriber.alignStep]
        | cons a0 arest =>
          have hstep : Transcriber.alignStep tws refs (a0 :: arest)
              ⟨.insert, i, i2, j, j2⟩ =
              (a0 :: arest) ++ insertEmit (((a0 :: arest).getLast (by simp)).end_) 0
                ((refs.drop j).take (j2 - j)) := rfl
          rw [hstep]
          constructor
          · intro w hw
            rcases List.mem_append.mp hw with h1 | h2
            · exact haccwf w h1
            · exact insertEmit_wf _ _ _ w h2
          · rw [List.chain'_append]
            refine ⟨haccch, (insertEmit_chain _ _ _).imp (fun a b hab => le_of_eq hab), ?_⟩
            intro x hx y hy
            rw [insertEmit_head _ _ y hy]
            have hlx : (a0 :: arest).getLast? = some ((a0 :: arest).getLast (by simp)) :=
              List.getLast?_eq_getLast _ (by simp)
            rw [hlx] at hx
            injection hx with hx
            rw [← hx]

/-- C5 (amended): for every transcript whose words are non-overlapping
(`start ≤ end` per word and each word's end at or before the next word's
start) and every valid opcode tiling in which an `insert` opcode occurs
only in final position, the reconciled output of the opcode loop has
monotonically non-decreasing timestamps (`start ≤ end` per word and each
word's end at or before the next word's start). -/
theorem align_monotone (tws : List TranscribedWord) (refs : List String) (ops : List Op)
    (hwf : ∀ w ∈ tws, w.start ≤ w.end_)
    (hch : List.Chain' (fun u v => u.end_ ≤ v.start) tws)
    (hv : ValidFrom tws.length refs.length 0 0 ops)
    (hins : insertOnlyLast ops) :
    (∀ w ∈ ops.foldl (Transcriber.alignStep tws refs) [], w.start ≤ w.end_) ∧
    List.Chain' (fun u v => u.end_ ≤ v.start)
      (ops.foldl (Transcriber.alignStep tws refs) []) :=
  align_monotone_aux tws refs hwf hch ops 0 0 [] hv hins (by simp) (by simp)
    (by intro w hw; simp at hw)

/-- Witness for C5 (amended) at a one-word transcript and a single
`equal` opcode. -/
theorem align_monotone_witness :
    (∀ w ∈ [(⟨.equal, 0, 1, 0, 1⟩ : Op)].foldl
        (Transcriber.alignStep [⟨"a", 0, 1, 1⟩] ["a"]) [], w.start ≤ w.end_) ∧
    List.Chain' (fun u v => u.end_ ≤ v.start)
      ([(⟨.equal, 0, 1, 0, 1⟩ : Op)].foldl
        (Transcriber.alignStep [⟨"a", 0, 1, 1⟩] ["a"]) []) :=
  align_monotone [⟨"a", 0, 1, 1⟩] ["a"] [⟨.equal, 0, 1, 0, 1⟩]
    (by intro w hw; simp only [List.mem_singleton] at hw; subst hw; norm_num)
    (by simp)
    (by refine ⟨rfl, rfl, le_refl _, le_refl _, ⟨Nat.zero_lt_one, rfl⟩, rfl, rfl⟩)
    (by intro o ho; simp at ho)

/-- C5 counterexample: the transcript `[a(0,1), b(1,2)]` satisfies the
claim's ordering hypothesis (non-decreasing starts, `end ≥ start` per
word, even non-overlapping), yet reconciling against the reference
`"a x y z b"` yields words whose start times `0, 1, 1.3, 1.6, 1` are not
monotonically non-decreasing (the mid-sequence insert run overshoots the
following transcript word). -/
theorem reconcile_monotone_cex :
    (List.Chain' (fun u v : TranscribedWord => u.start ≤ v.start)
      [⟨"a", 0, 1, 1⟩, ⟨"b", 1, 2, 1⟩]) ∧
    (∀ w ∈ ([⟨"a", 0, 1, 1⟩, ⟨"b", 1, 2, 1⟩] : List TranscribedWord),
      w.start ≤ w.end_) ∧
    ¬ List.Chain' (fun u v : TranscribedWord => u.start ≤ v.start)
      (Transcriber.transcribe_with_context [⟨"a", 0, 1, 1⟩, ⟨"b", 1, 2, 1⟩]
        (some "a x y z b")) := by
  have e1 : List.map (fun w : TranscribedWord => normalize_word w.word)
      [⟨"a", 0, 1, 1⟩, ⟨"b", 1, 2, 1⟩] = ["a", "b"] := by decide
  have e3 : parse_lyrics "a x y z b" = ["a", "x", "y", "z", "b"] := by decide
  have e2 : List.map normalize_word ["a", "x", "y", "z", "b"] =
      ["a", "x", "y", "z", "b"] := by decide
  have hops : get_opcodes ["a", "b"] ["a", "x", "y", "z", "b"] =
      [⟨.equal, 0, 1, 0, 1⟩, ⟨.insert, 1, 1, 1, 4⟩, ⟨.equal, 1, 2, 4, 5⟩] := by decide
  have hout : Transcriber.transcribe_with_context [⟨"a", 0, 1, 1⟩, ⟨"b", 1, 2, 1⟩]
      (some "a x y z b") =
      [⟨"a", 0, 1, 1⟩, ⟨"x", 1, 13 / 10, 3 / 10⟩, ⟨"y", 13 / 10, 16 / 10, 3 / 10⟩,
       ⟨"z", 16 / 10, 19 / 10, 3 / 10⟩, ⟨"b", 1, 2, 1⟩] := by
    simp only [Transcriber.transcribe_with_context]
    rw [if_neg (by decide : ¬("a x y z b" = ""))]
    rw [e3, e1, e2, hops]
    simp only [List.foldl_cons, List.foldl_nil]
    norm_num [Transcriber.alignStep, equalEmit, insertEmit, List.range'_succ,
      List.range', List.zip_cons_cons, List.getD_cons_zero, List.getD_cons_succ]
  refine ⟨?_, ?_, ?_⟩
  · simp only [List.chain'_cons, List.chain'_singleton, and_true]
    norm_num
  · intro w hw
    rcases List.mem_cons.mp hw with rfl | hw'
    · norm_num
    · rcases List.mem_cons.mp hw' with rfl | hw''
      · norm_num
      · simp at hw''
  · rw [hout]
    intro h
    simp only [List.chain'_cons, List.chain'_singleton, and_true] at h
    have hbad := h.2.2.2
    norm_num at hbad

/-- C9: on an `insert` opcode with at least one previously emitted word,
the emitted run is appended after the accumulator, every inserted word
has duration exactly 0.3s, the first inserted word starts exactly at the
previously emitted word's end, and consecutive inserted words are chained
with end = next start (no gaps, no overlaps). -/
theorem insert_run_chaining (tws : List TranscribedWord) (refs : List String)
    (a0 : TranscribedWord) (arest : List TranscribedWord) (op : Op)
    (hop : op.tag = .insert) :
    Transcriber.alignStep tws refs (a0 :: arest) op =
      (a0 :: arest) ++ insertEmit (((a0 :: arest).getLast (by simp)).end_) 0
        ((refs.drop op.j1).take (op.j2 - op.j1)) ∧
    (∀ w ∈ insertEmit (((a0 :: arest).getLast (by simp)).end_) 0
        ((refs.drop op.j1).take (op.j2 - op.j1)),
      w.end_ - w.start = 3 / 10) ∧
    (∀ w, (insertEmit (((a0 :: arest).getLast (by simp)).end_) 0
        ((refs.drop op.j1).take (op.j2 - op.j1))).head? = some w →
      w.start = ((a0 :: arest).getLast (by simp)).end_) ∧
    List.Chain' (fun u v => u.end_ = v.start)
      (insertEmit (((a0 :: arest).getLast (by simp)).end_) 0
        ((refs.drop op.j1).take (op.j2 - op.j1))) := by
  obtain ⟨tag, i1, i2, j1, j2⟩ := op
  dsimp only at hop
  subst hop
  refine ⟨rfl, ?_, ?_, ?_⟩
  · intro w hw
    exact (insertEmit_duration _ _ _ w hw).1
  · intro w hw
    exact insertEmit_head _ _ w hw
  · exact insertEmit_chain _ _ _

/-- Witness for C9 at a concrete accumulator and insert opcode. -/
theorem insert_run_chaining_witness :
    Transcriber.alignStep [] ["x"] [⟨"a", 0, 1, 1⟩] ⟨.insert, 1, 1, 0, 1⟩ =
      [⟨"a", 0, 1, 1⟩] ++ insertEmit 1 0 ["x"] :=
  (insert_run_chaining [] ["x"] ⟨"a", 0, 1, 1⟩ [] ⟨.insert, 1, 1, 0, 1⟩ rfl).1

/-! ## `editor.py`: `AudioEditor.mute_sections`.

The audio buffer is modelled at pydub's editing granularity: one value per
millisecond (silence = 0). pydub slices/lengths are in milliseconds, so
`audio[:s] + silence + audio[e:]` is exactly list take/replicate/drop once
pydub's position normalisation (clamp to `len`, negative-from-end, and the
byte-level lower clamp at 0) is applied. -/

/-- Python `int()` truncation toward zero on a rational. -/
def intTrunc (q : ℚ) : ℤ := if 0 ≤ q then ⌊q⌋ else -⌊-q⌋

/-- pydub `audio[:s]`: clamp `min(s, len)`, negative counts from the end,
byte slice clamps below at 0. -/
def segTake (a : List ℤ) (s : ℤ) : List ℤ :=
  let s' := min s (a.length : ℤ)
  let p := if s' < 0 then (a.length : ℤ) + s' else s'
  if 0 ≤ p then a.take p.toNat else a.take (max 0 ((a.length : ℤ) + p)).toNat

/-- pydub `audio[e:]`: same position normalisation, then drop. -/
def segDrop (a : List ℤ) (e : ℤ) : List ℤ :=
  let e' := min e (a.length : ℤ)
  let p := if e' < 0 then (a.length : ℤ) + e' else e'
  if 0 ≤ p then a.drop p.toNat else a.drop (max 0 ((a.length : ℤ) + p)).toNat

namespace AudioEditor

/-- One iteration of the mute loop:
`audio[:start_ms] + silence(duration) + audio[end_ms:]` with the clamped
fade-widened bounds (`AudioSegment.silent` of a negative duration is
empty, hence `Int.toNat`). -/
def muteOne (fade_ms : ℤ) (audio : List ℤ) (sec : ℚ × ℚ) : List ℤ :=
  let start_ms := intTrunc (sec.1 * 1000)
  let end_ms := intTrunc (sec.2 * 1000)
  let s := max 0 (start_ms - fade_ms)
  let e := min (audio.length : ℤ) (end_ms + fade_ms)
  segTake audio s ++ List.replicate (e - s).toNat 0 ++ segDrop audio e

/-- `AudioEditor.mute_sections`: sort by start ascending (Python's stable
sort), then process from the end (`reversed`). -/
def mute_sections (fade_ms : ℤ) (audio : List ℤ) (sections : List (ℚ × ℚ)) : List ℤ :=
  let sorted := List.insertionSort (fun p q : ℚ × ℚ => p.1 ≤ q.1) sections
  sorted.reverse.foldl (muteOne fade_ms) audio

/-- Membership of millisecond `k` in the fade-widened, clamped span of
`p`. -/
def inWidenB (fade : ℤ) (len : ℕ) (p : ℚ × ℚ) (k : ℕ) : Bool :=
  decide (max 0 (intTrunc (p.1 * 1000) - fade) ≤ (k : ℤ)) &&
  decide ((k : ℤ) < min (len : ℤ) (intTrunc (p.2 * 1000) + fade))

end AudioEditor

lemma intTrunc_nonneg {q : ℚ} (h : 0 ≤ q) : 0 ≤ intTrunc q := by
  rw [intTrunc, if_pos h]
  exact Int.floor_nonneg.mpr h

lemma intTrunc_mono_of_nonneg {q r : ℚ} (hq : 0 ≤ q) (hle : q ≤ r) :
    intTrunc q ≤ intTrunc r := by
  rw [intTrunc, if_pos hq, intTrunc, if_pos (le_trans hq hle)]
  exact Int.floor_le_floor hle

lemma zero_patch_getElem (a : List ℤ) (sn en : ℕ) (hse : sn ≤ en) (he : en ≤ a.length) :
    ∀ k, k < a.length →
      (a.take sn ++ (List.replicate (en - sn) (0 : ℤ) ++ a.drop en))[k]? =
        some (if sn ≤ k ∧ k < en then 0 else a.getD k 0) := by
  intro k hk
  have hlt : (a.take sn).length = sn := by
    simp [List.length_take]
    omega
  rcases Nat.lt_or_ge k sn with h1 | h1
  · rw [List.getElem?_append_left (by omega), List.getElem?_take_of_lt h1,
      List.getElem?_eq_getElem hk, if_neg (by omega)]
    simp [List.getD_eq_getElem?_getD, List.getElem?_eq_getElem hk]
  · rw [List.getElem?_append_right (by omega), hlt]
    rcases Nat.lt_or_ge k en with h2 | h2
    · rw [List.getElem?_append_left (by simp [List.length_replicate]; omega)]
      rw [List.getElem?_replicate_of_lt (by omega), if_pos (by omega)]
    · rw [List.getElem?_append_right (by simp [List.length_replicate]; omega)]
      rw [List.length_replicate, List.getElem?_drop, if_neg (by omega)]
      have hidx : en + (k - sn - (en - sn)) = k := by omega
      rw [hidx, List.getElem?_eq_getElem hk]
      simp [List.getD_eq_getElem?_getD, List.getElem?_eq_getElem hk]

lemma zero_patch_length (a : List ℤ) (sn en : ℕ) (hse : sn ≤ en) (he : en ≤ a.length) :
    (a.take sn ++ (List.replicate (en - sn) (0 : ℤ) ++ a.drop en)).length = a.length := by
  simp [List.length_take, List.length_drop, List.length_replicate]
  omega

lemma segTake_of_nonneg {a : List ℤ} {s : ℤ} (h0 : 0 ≤ s) (hl : s ≤ (a.length : ℤ)) :
    segTake a s = a.take s.toNat := by
  rw [segTake]
  simp only [min_eq_left hl, if_neg (not_lt.mpr h0), if_pos h0]

lemma segTake_of_gt {a : List ℤ} {s : ℤ} (h : (a.length : ℤ) < s) :
    segTake a s = a := by
  rw [segTake]
  have h0 : (0 : ℤ) ≤ (a.length : ℤ) := by positivity
  simp only [min_eq_right (le_of_lt h), if_neg (not_lt.mpr h0), if_pos h0,
    Int.toNat_natCast, List.take_length]

lemma segDrop_of_nonneg {a : List ℤ} {e : ℤ} (h0 : 0 ≤ e) (hl : e ≤ (a.length : ℤ)) :
    segDrop a e = a.drop e.toNat := by
  rw [segDrop]
  simp only [min_eq_left hl, if_neg (not_lt.mpr h0), if_pos h0]

lemma muteOne_eq (fade : ℤ) (audio : List ℤ) (p : ℚ × ℚ) :
    AudioEditor.muteOne fade audio p =
      segTake audio (max 0 (intTrunc (p.1 * 1000) - fade)) ++
      (List.replicate ((min (audio.length : ℤ) (intTrunc (p.2 * 1000) + fade) -
        max 0 (intTrunc (p.1 * 1000) - fade)).toNat) 0 ++
      segDrop audio (min (audio.length : ℤ) (intTrunc (p.2 * 1000) + fade))) := by
  simp only [AudioEditor.muteOne, List.append_assoc]

lemma muteOne_spec {fade : ℤ} (hf : 0 ≤ fade) (audio : List ℤ) (p : ℚ × ℚ)
    (hp1 : 0 ≤ p.1) (hp2 : p.1 ≤ p.2) :
    (AudioEditor.muteOne fade audio p).length = audio.length ∧
    ∀ k : ℕ, k < audio.length →
      (AudioEditor.muteOne fade audio p)[k]? =
        some (if AudioEditor.inWidenB fade audio.length p k then (0 : ℤ)
          else audio.getD k 0) := by
  have hsm0 : 0 ≤ intTrunc (p.1 * 1000) := intTrunc_nonneg (by positivity)
  have hsmem : intTrunc (p.1 * 1000) ≤ intTrunc (p.2 * 1000) :=
    intTrunc_mono_of_nonneg (by positivity) (by nlinarith)
  have hs0 : (0 : ℤ) ≤ max 0 (intTrunc (p.1 * 1000) - fade) := le_max_left _ _
  have hlen0 : (0 : ℤ) ≤ (audio.length : ℤ) := by positivity
  have he0 : (0 : ℤ) ≤ min (audio.length : ℤ) (intTrunc (p.2 * 1000) + fade) :=
    le_min hlen0 (by omega)
  have hel : min (audio.length : ℤ) (intTrunc (p.2 * 1000) + fade) ≤ (audio.length : ℤ) :=
    min_le_left _ _
  rw [muteOne_eq]
  rcases le_or_lt (max 0 (intTrunc (p.1 * 1000) - fade)) (audio.length : ℤ) with hsl | hsl
  · have hse : max 0 (intTrunc (p.1 * 1000) - fade) ≤
        min (audio.length : ℤ) (intTrunc (p.2 * 1000) + fade) := by
      apply le_min hsl
      apply max_le <;> omega
    rw [segTake_of_nonneg hs0 hsl, segDrop_of_nonneg he0 hel]
    have htn : (min (audio.length : ℤ) (intTrunc (p.2 * 1000) + fade) -
        max 0 (intTrunc (p.1 * 1000) - fade)).toNat =
        (min (audio.length : ℤ) (intTrunc (p.2 * 1000) + fade)).toNat -
          (max 0 (intTrunc (p.1 * 1000) - fade)).toNat := by omega
    rw [htn]
    have hseN : (max 0 (intTrunc (p.1 * 1000) - fade)).toNat ≤
        (min (audio.length : ℤ) (intTrunc (p.2 * 1000) + fade)).toNat := by omega
    have heN : (min (audio.length : ℤ) (intTrunc (p.2 * 1000) + fade)).toNat ≤
        audio.length := by omega
    refine ⟨zero_patch_length audio _ _ hseN heN, ?_⟩
    intro k hk
    rw [zero_patch_getElem audio _ _ hseN heN k hk]
    congr 1
    have hcond : (AudioEditor.inWidenB fade audio.length p k = true) ↔
        ((max 0 (intTrunc (p.1 * 1000) - fade)).toNat ≤ k ∧
          k < (min (audio.length : ℤ) (intTrunc (p.2 * 1000) + fade)).toNat) := by
      rw [AudioEditor.inWidenB]
      simp only [Bool.and_eq_true, decide_eq_true_eq]
      omega
    by_cases hc : AudioEditor.inWidenB fade audio.length p k = true
    · rw [if_pos hc, if_pos (hcond.mp hc)]
    · rw [if_neg hc, if_neg (fun hx => hc (hcond.mpr hx))]
  · have hegen : min (audio.length : ℤ) (intTrunc (p.2 * 1000) + fade) =
        (audio.length : ℤ) := by
      apply min_eq_left
      have : (audio.length : ℤ) < intTrunc (p.1 * 1000) - fade := by omega
      omega
    rw [segTake_of_gt hsl, hegen, segDrop_of_nonneg hlen0 (le_refl _),
      Int.toNat_natCast, List.drop_length]
    have hrep : ((audio.length : ℤ) - max 0 (intTrunc (p.1 * 1000) - fade)).toNat = 0 := by
      omega
    rw [hrep]
    simp only [List.replicate_zero, List.nil_append, List.append_nil]
    refine ⟨by simp, ?_⟩
    intro k hk
    have hcond : AudioEditor.inWidenB fade audio.length p k = false := by
      rw [AudioEditor.inWidenB]
      have hnk : ¬ (max 0 (intTrunc (p.1 * 1000) - fade) ≤ (k : ℤ)) := by omega
      simp [hnk]
    rw [hcond]
    simp [List.getD_eq_getElem?_getD, List.getElem?_eq_getElem hk]

lemma mute_foldl_spec {fade : ℤ} (hf : 0 ≤ fade) (orig : List ℤ) :
    ∀ (L : List (ℚ × ℚ)) (cur : List ℤ) (F : ℕ → Bool),
      (∀ p ∈ L, 0 ≤ p.1 ∧ p.1 ≤ p.2) →
      cur.length = orig.length →
      (∀ k, k < orig.length → cur[k]? = some (if F k then 0 else orig.getD k 0)) →
      (L.foldl (AudioEditor.muteOne fade) cur).length = orig.length ∧
      ∀ k, k < orig.length →
        (L.foldl (AudioEditor.muteOne fade) cur)[k]? =
          some (if (L.any (fun p => AudioEditor.inWidenB fade orig.length p k) || F k)
            then 0 else orig.getD k 0) := by
  intro L
  induction L with
  | nil =>
    intro cur F hwf hlen hidx
    refine ⟨hlen, ?_⟩
    intro k hk
    simp only [List.foldl_nil, List.any_nil, Bool.false_or]
    exact hidx k hk
  | cons p L' ih =>
    intro cur F hwf hlen hidx
    obtain ⟨hm1, hm2⟩ := muteOne_spec hf cur p (hwf p (by simp)).1 (hwf p (by simp)).2
    have hlen' : (AudioEditor.muteOne fade cur p).length = orig.length := by
      rw [hm1, hlen]
    have hidx' : ∀ k, k < orig.length →
        (AudioEditor.muteOne fade cur p)[k]? =
          some (if (AudioEditor.inWidenB fade orig.length p k || F k) then 0
          else orig.getD k 0) := by
      intro k hk
      rw [hm2 k (by omega), hlen]
      have hcg : cur.getD k 0 = if F k then 0 else orig.getD k 0 := by
        have := hidx k hk
        simp [List.getD_eq_getElem?_getD, this]
      rw [hcg]
      by_cases hw : AudioEditor.inWidenB fade orig.length p k = true
      · simp [hw]
      · simp only [Bool.not_eq_true] at hw
        simp [hw]
    obtain ⟨hL1, hL2⟩ := ih (AudioEditor.muteOne fade cur p)
      (fun k => AudioEditor.inWidenB fade orig.length p k || F k)
      (fun q hq => hwf q (by simp [hq])) hlen' hidx'
    refine ⟨by simpa using hL1, ?_⟩
    intro k hk
    rw [List.foldl_cons, hL2 k hk]
    congr 1
    have hb : ∀ (b1 b2 b3 : Bool), (b2 || (b1 || b3)) = ((b1 || b2) || b3) := by decide
    simp only [List.any_cons]
    exact hb _ _ _ ▸ rfl

/-- C8 (amended): for spans with `0 ≤ start ≤ end`, muting preserves the
buffer length, silences exactly the fade-widened clamped span of each
section, and leaves every sample outside the widened spans unchanged (no
sample positions shift). -/
theorem mute_sections_spec (fade : ℤ) (hf : 0 ≤ fade) (audio : List ℤ)
    (sections : List (ℚ × ℚ)) (hwf : ∀ p ∈ sections, 0 ≤ p.1 ∧ p.1 ≤ p.2) :
    (AudioEditor.mute_sections fade audio sections).length = audio.length ∧
    ∀ k, k < audio.length →
      (AudioEditor.mute_sections fade audio sections)[k]? =
        some (if sections.any (fun p => AudioEditor.inWidenB fade audio.length p k)
          then 0 else audio.getD k 0) := by
  have hperm : (List.insertionSort (fun p q : ℚ × ℚ => p.1 ≤ q.1) sections).reverse.Perm
      sections :=
    (List.reverse_perm _).trans (List.perm_insertionSort _ _)
  have hwf' : ∀ p ∈ (List.insertionSort (fun p q : ℚ × ℚ => p.1 ≤ q.1) sections).reverse,
      0 ≤ p.1 ∧ p.1 ≤ p.2 := fun p hp => hwf p (hperm.mem_iff.mp hp)
  obtain ⟨h1, h2⟩ := mute_foldl_spec hf audio
    (List.insertionSort (fun p q : ℚ × ℚ => p.1 ≤ q.1) sections).reverse audio
    (fun _ => false) hwf' rfl
    (by
      intro k hk
      simp [List.getD_eq_getElem?_getD, List.getElem?_eq_getElem hk])
  refine ⟨h1, ?_⟩
  intro k hk
  have hanyeq : (List.insertionSort (fun p q : ℚ × ℚ => p.1 ≤ q.1) sections).reverse.any
      (fun p => AudioEditor.inWidenB fade audio.length p k) =
      sections.any (fun p => AudioEditor.inWidenB fade audio.length p k) := by
    rcases hs : sections.any (fun p => AudioEditor.inWidenB fade audio.length p k) with _ | _
    · rw [List.any_eq_false] at hs ⊢
      intro p hp
      exact hs p (hperm.mem_iff.mp hp)
    · rw [List.any_eq_true] at hs ⊢
      obtain ⟨p, hp, hpw⟩ := hs
      exact ⟨p, hperm.mem_iff.mpr hp, hpw⟩
  rw [AudioEditor.mute_sections, h2 k hk]
  simp only [Bool.or_false, hanyeq]

/-- Witness for C8 (amended) on a 1 ms buffer and one well-formed span. -/
theorem mute_sections_spec_witness :
    (0 : ℤ) ≤ 10 ∧ (∀ p ∈ [((1 : ℚ), (2 : ℚ))], 0 ≤ p.1 ∧ p.1 ≤ p.2) ∧
    ((AudioEditor.mute_sections 10 [(5 : ℤ)] [((1 : ℚ), (2 : ℚ))]).length =
      ([(5 : ℤ)] : List ℤ).length ∧
    ∀ k, k < ([(5 : ℤ)] : List ℤ).length →
      (AudioEditor.mute_sections 10 [(5 : ℤ)] [((1 : ℚ), (2 : ℚ))])[k]? =
        some (if [((1 : ℚ), (2 : ℚ))].any
            (fun p => AudioEditor.inWidenB 10 ([(5 : ℤ)] : List ℤ).length p k)
          then 0 else ([(5 : ℤ)] : List ℤ).getD k 0)) :=
  ⟨by norm_num, by norm_num,
    mute_sections_spec 10 (by norm_num) [(5 : ℤ)] [((1 : ℚ), (2 : ℚ))]
      (by norm_num)⟩

/-- C8 counterexample: the claim quantifies over every list of spans, but
the span `(0.03, 0.0)` (end before start) makes `audio[:20] + [] +
audio[10:]` duplicate the region `[10, 20)`: a 30 ms buffer comes back
40 ms long, so the output length is not preserved. -/
theorem mute_sections_length_cex :
    (List.replicate 30 (1 : ℤ)).length = 30 ∧
    (AudioEditor.mute_sections 10 (List.replicate 30 (1 : ℤ))
      [((3 / 100 : ℚ), (0 : ℚ))]).length = 40 := by
  have h1 : intTrunc ((((3 / 100 : ℚ), (0 : ℚ)).1) * 1000) = 30 := by
    rw [show ((((3 / 100 : ℚ), (0 : ℚ)).1) * 1000) = ((30 : ℤ) : ℚ) by norm_num,
      intTrunc, if_pos (by norm_num), Int.floor_intCast]
  have h2 : intTrunc ((((3 / 100 : ℚ), (0 : ℚ)).2) * 1000) = 0 := by
    rw [show ((((3 / 100 : ℚ), (0 : ℚ)).2) * 1000) = ((0 : ℤ) : ℚ) by norm_num,
      intTrunc, if_pos (by norm_num), Int.floor_intCast]
  refine ⟨by simp, ?_⟩
  rw [AudioEditor.mute_sections]
  simp only [List.insertionSort, List.orderedInsert, List.reverse_cons,
    List.reverse_nil, List.nil_append, List.foldl_cons, List.foldl_nil]
  rw [muteOne_eq, h1, h2]
  decide

/-! ## `edl.py`: `EditPoint` / `EDL` and JSON loading -/

/-- JSON values (`json.load` output). -/
inductive Json where
  | null
  | bool (b : Bool)
  | num (q : ℚ)
  | str (s : String)
  | arr (items : List Json)
  | obj (fields : List (String × Json))

/-- Python dict lookup on a parsed JSON object (`json.loads` keeps the
last occurrence of a duplicated key). -/
def jget (fields : List (String × Json)) (k : String) : Option Json :=
  (fields.reverse.find? (fun q => q.1 = k)).map (fun q => q.2)

/-- `parse_timestamp(str(v))` for a JSON value `v`: a JSON number
round-trips through `str`/`float` to itself; a string goes through
`parse_timestamp`; `str()` of any other value never parses. -/
def tsFromJson : Json → Option ℚ
  | .num q => some q
  | .str s => parseTimestampCh s.data
  | _ => none

/-- `float(v)` for the JSON value of the `confidence` field. -/
def confFromJson : Json → Option ℚ
  | .num q => some q
  | .str s => pyFloatCh s.data
  | .bool b => some (if b then 1 else 0)
  | _ => none

/-- `EditPoint` (edl.py); `word` is stored untyped, as in the Python
dataclass. -/
structure EditPoint where
  start : ℚ
  end_ : ℚ
  word : Json
  confidence : ℚ

/-- `EditPoint.from_dict`: required `start`, `end`, `word`; `confidence`
defaults to `1.0` (`data.get("confidence", 1.0)`); `none` models any
raised exception. -/
def EditPoint.from_dict : Json → Option EditPoint
  | .obj fields => do
    let sv ← jget fields "start"
    let s ← tsFromJson sv
    let ev ← jget fields "end"
    let e ← tsFromJson ev
    let w ← jget fields "word"
    let c ← confFromJson ((jget fields "confidence").getD (.num 1))
    pure ⟨s, e, w, c⟩
  | _ => none

/-- The list comprehension `[EditPoint.from_dict(e) for e in data["edits"]]`
(failure of any element fails the whole load). -/
def editsMapM : List Json → Option (List EditPoint)
  | [] => some []
  | e :: es => do
    let p ← EditPoint.from_dict e
    let ps ← editsMapM es
    pure (p :: ps)

/-- `EDL` (edl.py). -/
structure EDL where
  source_file : Json
  generated : Json
  stems_dir : Option Json
  edits : List EditPoint

/-- `EDL.from_dict`: required `source_file`, `generated`, `edits`
(a JSON array, each element a loadable edit); `stems_dir` is optional
(`data.get("stems_dir")`). -/
def EDL.from_dict : Json → Option EDL
  | .obj fields => do
    let sf ← jget fields "source_file"
    let g ← jget fields "generated"
    let sd := jget fields "stems_dir"
    match jget fields "edits" with
    | some (.arr es) => do
      let eds ← editsMapM es
      pure ⟨sf, g, sd, eds⟩
    | _ => none
  | _ => none

/-- `create_edl` (edl.py): build an `EDL` from detected matches; the
`generated` timestamp (`datetime.now().isoformat()`) is supplied by the
caller's clock. -/
def create_edl (source_file : String) (now : String)
    (profanities : List ProfanityMatch) (stems_dir : Option String) : EDL where
  source_file := .str source_file
  generated := .str now
  stems_dir := stems_dir.map .str
  edits := profanities.map (fun m => ⟨m.start, m.end_, .str m.original_word, m.confidence⟩)

/-- Loadability of one edit object (start/end present and parseable,
word present, confidence absent or float-convertible). -/
def editWellFormed (e : Json) : Prop :=
  ∃ f, e = .obj f ∧
    (∃ sv, jget f "start" = some sv ∧ (tsFromJson sv).isSome) ∧
    (∃ ev, jget f "end" = some ev ∧ (tsFromJson ev).isSome) ∧
    (jget f "word").isSome ∧
    (confFromJson ((jget f "confidence").getD (.num 1))).isSome

/-- Loadability of a whole EDL object. -/
def edlWellFormed (j : Json) : Prop :=
  ∃ fields, j = .obj fields ∧
    (jget fields "source_file").isSome ∧
    (jget fields "generated").isSome ∧
    ∃ es, jget fields "edits" = some (.arr es) ∧ ∀ e ∈ es, editWellFormed e

lemma bind_isSome {α β : Type} (a : Option α) (f : α → Option β) :
    (a.bind f).isSome = true ↔ ∃ x, a = some x ∧ (f x).isSome = true := by
  cases a <;> simp

lemma editsMapM_isSome (es : List Json) :
    (editsMapM es).isSome = true ↔
      ∀ e ∈ es, (EditPoint.from_dict e).isSome = true := by
  induction es with
  | nil => simp [editsMapM]
  | cons e es' ih =>
    rw [editsMapM]
    constructor
    · intro h
      rcases hfe : EditPoint.from_dict e with _ | v
      · rw [hfe] at h; simp at h
      · rw [hfe] at h
        rcases hms : editsMapM es' with _ | vs
        · rw [hms] at h; simp at h
        · intro x hx
          rcases List.mem_cons.mp hx with rfl | hx'
          · simp [hfe]
          · exact ih.mp (by simp [hms]) x hx'
    · intro h
      rcases hfe : EditPoint.from_dict e with _ | v
      · exact absurd (h e (by simp)) (by simp [hfe])
      · rcases hms : editsMapM es' with _ | vs
        · have hall := ih.mpr (fun x hx => h x (by simp [hx]))
          rw [hms] at hall
          simp at hall
        · simp [hfe, hms]

lemma editPoint_from_dict_isSome (e : Json) :
    (EditPoint.from_dict e).isSome = true ↔ editWellFormed e := by
  cases e with
  | null => simp [EditPoint.from_dict, editWellFormed]
  | bool b => simp [EditPoint.from_dict, editWellFormed]
  | num q => simp [EditPoint.from_dict, editWellFormed]
  | str s => simp [EditPoint.from_dict, editWellFormed]
  | arr l => simp [EditPoint.from_dict, editWellFormed]
  | obj f =>
    rw [EditPoint.from_dict]
    rcases h1 : jget f "start" with _ | sv
    · simp [editWellFormed, h1]
    · rcases h2 : tsFromJson sv with _ | s
      · simp [editWellFormed, h1, h2]
      · rcases h3 : jget f "end" with _ | ev
        · simp [editWellFormed, h1, h2, h3]
        · rcases h4 : tsFromJson ev with _ | en
          · simp [editWellFormed, h1, h2, h3, h4]
          · rcases h5 : jget f "word" with _ | w
            · simp [editWellFormed, h1, h2, h3, h4, h5]
            · rcases h6 : confFromJson ((jget f "confidence").getD (.num 1)) with _ | c
              · simp [editWellFormed, h1, h2, h3, h4, h5, h6]
              · simp [editWellFormed, h1, h2, h3, h4, h5, h6]

lemma jget_append_fresh (fields : List (String × Json)) (k k' : String) (v : Json)
    (h : k ≠ k') : jget (fields ++ [(k, v)]) k' = jget fields k' := by
  rw [jget, jget, List.reverse_append, List.reverse_singleton, List.singleton_append,
    List.find?_cons]
  simp [h]

/-- C4 (amended): characterization of `EDL.load` (via `EDL.from_dict`):
a JSON object loads iff it has the required keys `source_file`, `generated`
and `edits`, where `edits` is an array of edit objects each with parseable
`start`/`end` and a present `word`; unknown extra keys on the EDL object and
on edit objects are ignored; a missing `confidence` defaults to `1.0`. -/
theorem edl_load_characterization :
    (∀ j, (EDL.from_dict j).isSome = true ↔ edlWellFormed j) ∧
    (∀ fields k v,
      k ∉ (["source_file", "generated", "stems_dir", "edits"] : List String) →
      EDL.from_dict (.obj (fields ++ [(k, v)])) = EDL.from_dict (.obj fields)) ∧
    (∀ f k v, k ∉ (["start", "end", "word", "confidence"] : List String) →
      EditPoint.from_dict (.obj (f ++ [(k, v)])) = EditPoint.from_dict (.obj f)) ∧
    (∀ f p, jget f "confidence" = none →
      EditPoint.from_dict (.obj f) = some p → p.confidence = 1) := by
  refine ⟨?_, ?_, ?_, ?_⟩
  · intro j
    cases j with
    | null => simp [EDL.from_dict, edlWellFormed]
    | bool b => simp [EDL.from_dict, edlWellFormed]
    | num q => simp [EDL.from_dict, edlWellFormed]
    | str s => simp [EDL.from_dict, edlWellFormed]
    | arr l => simp [EDL.from_dict, edlWellFormed]
    | obj fields =>
      rw [EDL.from_dict]
      rcases h1 : jget fields "source_file" with _ | sf
      · simp [edlWellFormed, h1]
      · rcases h2 : jget fields "generated" with _ | g
        · simp [edlWellFormed, h1, h2]
        · rcases h3 : jget fields "edits" with _ | ev
          · simp [edlWellFormed, h1, h2, h3]
          · cases ev with
            | arr es =>
              rcases h4 : editsMapM es with _ | eds
              · have hnot := (editsMapM_isSome es).not
                rw [h4] at hnot
                simp only [Option.isSome_none, Bool.false_eq_true, false_iff,
                  not_true_eq_false, false_iff, not_forall] at hnot
                simp only [h1, h2, h3, h4, Option.some_bind, Option.none_bind]
                simp only [edlWellFormed, Json.obj.injEq, edlWellFormed]
                constructor
                · intro hco; simp at hco
                · rintro ⟨f', rfl, -, -, es', hes', hall⟩
                  rw [h3] at hes'
                  obtain rfl : es = es' := by
                    injection hes' with hx
                    injection hx
                  obtain ⟨e, he, hbad⟩ := by
                    simpa using hnot
                  exact absurd ((editPoint_from_dict_isSome e).mpr (hall e he)) (by simp [hbad])
              · simp only [h1, h2, h3, h4, Option.some_bind]
                simp only [edlWellFormed, Json.obj.injEq]
                constructor
                · intro _
                  refine ⟨fields, rfl, by simp [h1], by simp [h2], es, h3, ?_⟩
                  intro e he
                  exact (editPoint_from_dict_isSome e).mp
                    ((editsMapM_isSome es).mp (by simp [h4]) e he)
                · intro _; simp
            | null => simp [edlWellFormed, h1, h2, h3]
            | bool b => simp [edlWellFormed, h1, h2, h3]
            | num q => simp [edlWellFormed, h1, h2, h3]
            | str s => simp [edlWellFormed, h1, h2, h3]
            | obj f2 => simp [edlWellFormed, h1, h2, h3]
  · intro fields k v hk
    simp only [List.mem_cons, List.not_mem_nil, or_false, not_or] at hk
    obtain ⟨hk1, hk2, hk3, hk4⟩ := hk
    rw [EDL.from_dict, EDL.from_dict,
      jget_append_fresh fields k "source_file" v hk1,
      jget_append_fresh fields k "generated" v hk2,
      jget_append_fresh fields k "stems_dir" v hk3,
      jget_append_fresh fields k "edits" v hk4]
  · intro f k v hk
    simp only [List.mem_cons, List.not_mem_nil, or_false, not_or] at hk
    obtain ⟨hk1, hk2, hk3, hk4⟩ := hk
    rw [EditPoint.from_dict, EditPoint.from_dict,
      jget_append_fresh f k "start" v hk1,
      jget_append_fresh f k "end" v hk2,
      jget_append_fresh f k "word" v hk3,
      jget_append_fresh f k "confidence" v hk4]
  · intro f p hconf hp
    rw [EditPoint.from_dict, hconf] at hp
    rcases h1 : jget f "start" with _ | sv
    · simp [h1] at hp
    · rcases h2 : tsFromJson sv with _ | s
      · simp [h1, h2] at hp
      · rcases h3 : jget f "end" with _ | ev
        · simp [h1, h2, h3] at hp
        · rcases h4 : tsFromJson ev with _ | en
          · simp [h1, h2, h3, h4] at hp
          · rcases h5 : jget f "word" with _ | w
            · simp [h1, h2, h3, h4, h5] at hp
            · have hconf1 : confFromJson (Json.num 1) = some 1 := rfl
              simp [h1, h2, h3, h4, h5, hconf1] at hp
              rw [← hp]

/-- C4 counterexample: the required timestamp field is named `generated`
in the code (`data["generated"]` in `EDL.from_dict`), not `generated_at`
as the spec states: an otherwise complete EDL object that carries
`generated_at` instead of `generated` fails to load. -/
theorem edl_load_cex :
    EDL.from_dict (.obj [("source_file", .str "song.mp3"),
      ("generated_at", .str "2024-01-01T00:00:00"), ("edits", .arr [])]) = none := by
  rfl


/-- C4 witness: the characterization applied at a concrete edit object
without a `confidence` key: it loads and the confidence defaults to 1. -/
theorem edl_load_characterization_witness :
    jget [("start", Json.num 0), ("end", Json.num 2), ("word", Json.str "damn")]
      "confidence" = none ∧
    EditPoint.from_dict (.obj [("start", Json.num 0), ("end", Json.num 2),
      ("word", Json.str "damn")]) = some ⟨0, 2, .str "damn", 1⟩ ∧
    (⟨0, 2, .str "damn", 1⟩ : EditPoint).confidence = 1 :=
  ⟨rfl, rfl, edl_load_characterization.2.2.2
    [("start", Json.num 0), ("end", Json.num 2), ("word", Json.str "damn")]
    ⟨0, 2, .str "damn", 1⟩ rfl rfl⟩

/-! ## `pipeline.py`: `FilterResult` and the four workflow entry points -/

/-- Result record of the filtering workflows (`FilterResult`, pipeline.py);
paths are modelled as strings, `Path("")` as `some ""`. -/
structure FilterResult where
  input_path : String
  output_path : Option String
  profanities_found : List ProfanityMatch
  transcribed_words : List TranscribedWord
  success : Bool
  error : Option String
  edl_path : Option String
  stems_dir : Option String
deriving DecidableEq

/-- Outcomes of the external collaborators and filesystem probes of one run
(demucs separation, whisper transcription, pydub editing and export, mutagen
tagging, the EDL file on disk): an `Except.error e` models the call raising
an exception whose `str` is `e`. `edlJson` is the parsed content of the EDL
file (`none` when opening or `json.load` raises), and `stemsCacheHit` models
`stems_dir.exists()` together with both stem files being found. -/
structure PipelineEnv where
  inputExists : Bool
  edlExists : Bool
  lexicon : List String
  separateR : Except String Unit
  transcribeR : Except String (List TranscribedWord)
  muteR : Except String Unit
  combineR : Except String Unit
  copyTagsR : Except String Unit
  embedLyricsR : Except String Unit
  writeLogR : Except String Unit
  saveEdlR : Except String Unit
  edlJson : Option Json
  stemsCacheHit : Bool

/-- Observable filesystem side effects of one workflow run: whether the
persistent stems directory was created (`stems_dir.mkdir`, pipeline.py line
296) and removed again (`shutil.rmtree(stems_dir)`, line 337), and whether
the separator, the muting editor and the combining exporter were invoked. -/
structure PipelineFx where
  stemsDirCreated : Bool
  stemsDirRemoved : Bool
  separateCalled : Bool
  muteCalled : Bool
  exportCalled : Bool
deriving DecidableEq

/-- Final `/`-separated component of a path (`Path(p).name`). -/
def pathName (p : String) : String := (p.splitOn "/").getLastD p

/-- Index of the last `.` in a character list (`name.rfind`, as used by
`PurePath.suffix`). -/
def rfindDot : List Char → Option Nat
  | [] => none
  | c :: cs =>
    match rfindDot cs with
    | some i => some (i + 1)
    | none => if c = '.' then some 0 else none

/-- Extension of the final component (`Path(p).suffix`): empty when the last
dot is leading or trailing. -/
def pathSuffix (p : String) : String :=
  let name := (pathName p).data
  match rfindDot name with
  | some i => if 0 < i ∧ i < name.length - 1 then ⟨name.drop i⟩ else ""
  | none => ""

/-- Final component without its extension (`Path(p).stem`). -/
def pathStem (p : String) : String :=
  let name := (pathName p).data
  match rfindDot name with
  | some i => if 0 < i ∧ i < name.length - 1 then ⟨name.take i⟩ else ⟨name⟩
  | none => ⟨name⟩

/-- Sibling path construction `str(Path(p).parent / child)` (a parent of
`"."` collapses away, as for a bare filename). -/
def pathSibling (p : String) (child : String) : String :=
  match (p.splitOn "/").dropLast with
  | [] => child
  | parts => String.intercalate "/" parts ++ "/" ++ child

/-- Default output path `input_path.parent / f"{stem} (clean){suffix}"`. -/
def defaultCleanPath (p : String) : String :=
  pathSibling p (pathStem p ++ " (clean)" ++ pathSuffix p)

/-- Truthiness of the optional `lyrics` argument (`if lyrics:`). -/
def lyricsTruthy : Option String → Bool
  | some s => !s.isEmpty
  | none => false

/-- Truthiness of a JSON-loaded value. -/
def jsonTruthy : Json → Bool
  | .null => false
  | .bool b => b
  | .num q => decide (q ≠ 0)
  | .str s => !s.isEmpty
  | .arr l => !l.isEmpty
  | .obj f => !f.isEmpty

/-- String payload of a JSON value (`EDL.save` writes `word` as a JSON
string; `apply_edl` feeds it back into a `ProfanityMatch`). -/
def jsonStrVal : Json → String
  | .str s => s
  | _ => ""

/-- Whether `Path(edl.stems_dir) if edl.stems_dir else None` (pipeline.py
line 445) runs without raising: `Path()` accepts a string but raises
`TypeError` on any other truthy argument (a JSON number, `true`, a
nonempty array or object), all of which `EDL.from_dict` loads without
complaint. -/
def stemsArgOk : Option Json → Bool
  | some sd => !jsonTruthy sd || (match sd with | .str _ => true | _ => false)
  | none => true

/-- Message of the exception raised by `self.detector.check_text(lyrics)`:
`ProfanityDetector` (detector.py) defines `detect`, `add_words` and
`remove_words` but no `check_text`, so the attribute lookup raises. -/
def checkTextError : String :=
  "AttributeError: ProfanityDetector object has no attribute check_text"

/-- Message of the exception raised by the `finally` block of `apply_edl`
when it reads `temp_dir` (first assigned at pipeline.py line 460) on a path
that exits the `try` before that assignment. -/
def tempDirUnboundError : String :=
  "UnboundLocalError: local variable temp_dir referenced before assignment"

namespace MusicProfanityFilter

/-- Workflow `MusicProfanityFilter.filter` (pipeline.py lines 63-222), with
`keep_temp_files = False`. The lyric pre-check at line 114 calls the missing
`check_text` outside the `try` block, so truthy `lyrics` raise; every other
failure is caught by the `except` clause and becomes a `success=False`
result. -/
def filter (env : PipelineEnv) (input_path : String) (output_path : Option String)
    (overwrite : Bool) (preview_callback : Option (List ProfanityMatch → Bool))
    (lyrics : Option String) : Except String FilterResult × PipelineFx :=
  if !env.inputExists then
    (.ok ⟨input_path, some "", [], [], false,
        some ("Input file not found: " ++ input_path), none, none⟩,
      ⟨false, false, false, false, false⟩)
  else
    let out :=
      match output_path with
      | none => if overwrite then input_path else defaultCleanPath input_path
      | some o => o
    if lyricsTruthy lyrics then
      (.error checkTextError, ⟨false, false, false, false, false⟩)
    else
      match env.separateR with
      | .error e =>
        (.ok ⟨input_path, some out, [], [], false, some e, none, none⟩,
          ⟨false, false, true, false, false⟩)
      | .ok _ =>
        match env.transcribeR with
        | .error e =>
          (.ok ⟨input_path, some out, [], [], false, some e, none, none⟩,
            ⟨false, false, true, false, false⟩)
        | .ok words =>
          let profanities := ProfanityDetector.detect env.lexicon words
          if (match preview_callback with
              | some cb => !profanities.isEmpty && !cb profanities
              | none => false) then
            (.ok ⟨input_path, some out, profanities, words, false,
                some "Cancelled by user", none, none⟩,
              ⟨false, false, true, false, false⟩)
          else if profanities.isEmpty then
            (.ok ⟨input_path, none, [], words, true, none, none, none⟩,
              ⟨false, false, true, false, false⟩)
          else
            match env.muteR with
            | .error e =>
              (.ok ⟨input_path, some out, [], [], false, some e, none, none⟩,
                ⟨false, false, true, true, false⟩)
            | .ok _ =>
              match env.combineR with
              | .error e =>
                (.ok ⟨input_path, some out, [], [], false, some e, none, none⟩,
                  ⟨false, false, true, true, true⟩)
              | .ok _ =>
                match env.copyTagsR with
                | .error e =>
                  (.ok ⟨input_path, some out, [], [], false, some e, none, none⟩,
                    ⟨false, false, true, true, true⟩)
                | .ok _ =>
                  match (if !words.isEmpty && (pathSuffix out).toLower == ".mp3"
                      then env.embedLyricsR else Except.ok ()) with
                  | .error e =>
                    (.ok ⟨input_path, some out, [], [], false, some e, none, none⟩,
                      ⟨false, false, true, true, true⟩)
                  | .ok _ =>
                    match env.writeLogR with
                    | .error e =>
                      (.ok ⟨input_path, some out, [], [], false, some e, none, none⟩,
                        ⟨false, false, true, true, true⟩)
                    | .ok _ =>
                      (.ok ⟨input_path, some out, profanities, words, true,
                          none, none, none⟩,
                        ⟨false, false, true, true, true⟩)

/-- Workflow `MusicProfanityFilter.detect_only` (pipeline.py lines 224-251):
a bare `try`/`finally` with no `except`, returning a plain match list; any
collaborator exception propagates to the caller after the temp cleanup. -/
def detect_only (env : PipelineEnv) (input_path : String) :
    Except String (List ProfanityMatch) × PipelineFx :=
  match env.separateR with
  | .error e => (.error e, ⟨false, false, true, false, false⟩)
  | .ok _ =>
    match env.transcribeR with
    | .error e => (.error e, ⟨false, false, true, false, false⟩)
    | .ok words =>
      (.ok (ProfanityDetector.detect env.lexicon words),
        ⟨false, false, true, false, false⟩)

/-- Workflow `MusicProfanityFilter.generate_edl` (pipeline.py lines 253-374).
The stems directory is created (`mkdir`, line 296) before the lyric
pre-check at lines 299-310, and that pre-check calls the missing
`check_text`, so truthy `lyrics` raise with the directory already on disk;
on the no-profanity path (line 337) the directory is removed again. -/
def generate_edl (env : PipelineEnv) (input_path : String)
    (edl_path : Option String) (stems_dir : Option String)
    (lyrics : Option String) : Except String FilterResult × PipelineFx :=
  if !env.inputExists then
    (.ok ⟨input_path, none, [], [], false,
        some ("Input file not found: " ++ input_path), none, none⟩,
      ⟨false, false, false, false, false⟩)
  else
    let edlp :=
      match edl_path with
      | none => pathSibling input_path (pathStem input_path ++ ".edl.json")
      | some p => p
    let stemsd :=
      match stems_dir with
      | none => pathSibling input_path (pathStem input_path ++ "_stems")
      | some p => p
    if lyricsTruthy lyrics then
      (.error checkTextError, ⟨true, false, false, false, false⟩)
    else
      match env.separateR with
      | .error e =>
        (.ok ⟨input_path, none, [], [], false, some e, none, none⟩,
          ⟨true, false, true, false, false⟩)
      | .ok _ =>
        match env.transcribeR with
        | .error e =>
          (.ok ⟨input_path, none, [], [], false, some e, none, none⟩,
            ⟨true, false, true, false, false⟩)
        | .ok words =>
          let profanities := ProfanityDetector.detect env.lexicon words
          if profanities.isEmpty then
            (.ok ⟨input_path, none, [], words, true, none, none, none⟩,
              ⟨true, true, true, false, false⟩)
          else
            match env.saveEdlR with
            | .error e =>
              (.ok ⟨input_path, none, [], [], false, some e, none, none⟩,
                ⟨true, false, true, false, false⟩)
            | .ok _ =>
              (.ok ⟨input_path, none, profanities, words, true, none,
                  some edlp, some stemsd⟩,
                ⟨true, false, true, false, false⟩)

/-- Workflow `MusicProfanityFilter.apply_edl` (pipeline.py lines 376-527),
with `keep_temp_files = False`. The `finally` block (line 525) reads
`temp_dir`, which is first assigned at line 460: on any exit from the `try`
before that line — a failing `EDL.load`, the empty-edits return at line
436, or a `TypeError` from `Path(edl.stems_dir)` at line 445 — the
`finally` raises `UnboundLocalError`, replacing the pending result. -/
def apply_edl (env : PipelineEnv) (input_path edl_path : String)
    (output_path : Option String) (overwrite : Bool) :
    Except String FilterResult × PipelineFx :=
  if !env.inputExists then
    (.ok ⟨input_path, none, [], [], false,
        some ("Input file not found: " ++ input_path), none, none⟩,
      ⟨false, false, false, false, false⟩)
  else if !env.edlExists then
    (.ok ⟨input_path, none, [], [], false,
        some ("EDL file not found: " ++ edl_path), none, none⟩,
      ⟨false, false, false, false, false⟩)
  else
    let out :=
      match output_path with
      | none => if overwrite then input_path else defaultCleanPath input_path
      | some o => o
    match env.edlJson.bind EDL.from_dict with
    | none => (.error tempDirUnboundError, ⟨false, false, false, false, false⟩)
    | some edl =>
      if edl.edits.isEmpty then
        (.error tempDirUnboundError, ⟨false, false, false, false, false⟩)
      else if !stemsArgOk edl.stems_dir then
        (.error tempDirUnboundError, ⟨false, false, false, false, false⟩)
      else
        let cached :=
          (match edl.stems_dir with
           | some sd => jsonTruthy sd
           | none => false) && env.stemsCacheHit
        match (if cached then Except.ok () else env.separateR) with
        | .error e =>
          (.ok ⟨input_path, none, [], [], false, some e, none, none⟩,
            ⟨false, false, !cached, false, false⟩)
        | .ok _ =>
          let edits_for_muting := edl.edits.map (fun e =>
            (⟨jsonStrVal e.word, jsonStrVal e.word, e.start, e.end_,
              e.confidence⟩ : ProfanityMatch))
          match env.muteR with
          | .error e =>
            (.ok ⟨input_path, none, [], [], false, some e, none, none⟩,
              ⟨false, false, !cached, true, false⟩)
          | .ok _ =>
            match env.combineR with
            | .error e =>
              (.ok ⟨input_path, none, [], [], false, some e, none, none⟩,
                ⟨false, false, !cached, true, true⟩)
            | .ok _ =>
              match env.copyTagsR with
              | .error e =>
                (.ok ⟨input_path, none, [], [], false, some e, none, none⟩,
                  ⟨false, false, !cached, true, true⟩)
              | .ok _ =>
                match env.writeLogR with
                | .error e =>
                  (.ok ⟨input_path, none, [], [], false, some e, none, none⟩,
                    ⟨false, false, !cached, true, true⟩)
                | .ok _ =>
                  (.ok ⟨input_path, some out, edits_for_muting, [], true,
                      none, none, none⟩,
                    ⟨false, false, !cached, true, true⟩)

end MusicProfanityFilter

lemma filter_no_lyrics_ok (env : PipelineEnv) (input : String)
    (outp : Option String) (ov : Bool) (cb : Option (List ProfanityMatch → Bool)) :
    ∃ r, (MusicProfanityFilter.filter env input outp ov cb none).1 = .ok r ∧
      (r.success = false → r.error.isSome = true) := by
  simp only [MusicProfanityFilter.filter]
  cases hIE : env.inputExists
  · exact ⟨_, rfl, by simp⟩
  · cases hS : env.separateR with
    | error e => exact ⟨_, rfl, by simp⟩
    | ok u =>
      cases hT : env.transcribeR with
      | error e => exact ⟨_, rfl, by simp⟩
      | ok ws =>
        cases cb with
        | none =>
          dsimp only
          cases hPE : (ProfanityDetector.detect env.lexicon ws).isEmpty
          · cases hM : env.muteR with
            | error e => exact ⟨_, rfl, by simp⟩
            | ok u2 =>
              cases hC : env.combineR with
              | error e => exact ⟨_, rfl, by simp⟩
              | ok u3 =>
                cases hCT : env.copyTagsR with
                | error e => exact ⟨_, rfl, by simp⟩
                | ok u4 =>
                  cases hE : (if !ws.isEmpty && (pathSuffix
                      (match outp with
                       | none => if ov then input else defaultCleanPath input
                       | some o => o)).toLower == ".mp3"
                      then env.embedLyricsR else Except.ok ()) with
                  | error e => exact ⟨_, rfl, by simp⟩
                  | ok u5 =>
                    cases hW : env.writeLogR with
                    | error e => exact ⟨_, rfl, by simp⟩
                    | ok u6 => exact ⟨_, rfl, by simp⟩
          · exact ⟨_, rfl, by simp⟩
        | some f =>
          dsimp only
          cases hPE : (ProfanityDetector.detect env.lexicon ws).isEmpty
          · cases hCB : f (ProfanityDetector.detect env.lexicon ws)
            · exact ⟨_, rfl, by simp⟩
            · cases hM : env.muteR with
              | error e => exact ⟨_, rfl, by simp⟩
              | ok u2 =>
                cases hC : env.combineR with
                | error e => exact ⟨_, rfl, by simp⟩
                | ok u3 =>
                  cases hCT : env.copyTagsR with
                  | error e => exact ⟨_, rfl, by simp⟩
                  | ok u4 =>
                    cases hE : (if !ws.isEmpty && (pathSuffix
                        (match outp with
                         | none => if ov then input else defaultCleanPath input
                         | some o => o)).toLower == ".mp3"
                        then env.embedLyricsR else Except.ok ()) with
                    | error e => exact ⟨_, rfl, by simp⟩
                    | ok u5 =>
                      cases hW : env.writeLogR with
                      | error e => exact ⟨_, rfl, by simp⟩
                      | ok u6 => exact ⟨_, rfl, by simp⟩
          · exact ⟨_, rfl, by simp⟩

lemma generate_edl_no_lyrics_ok (env : PipelineEnv) (input : String)
    (edlp sdp : Option String) :
    ∃ r, (MusicProfanityFilter.generate_edl env input edlp sdp none).1 = .ok r ∧
      (r.success = false → r.error.isSome = true) := by
  simp only [MusicProfanityFilter.generate_edl]
  cases hIE : env.inputExists
  · exact ⟨_, rfl, by simp⟩
  · cases hS : env.separateR with
    | error e => exact ⟨_, rfl, by simp⟩
    | ok u =>
      cases hT : env.transcribeR with
      | error e => exact ⟨_, rfl, by simp⟩
      | ok ws =>
        dsimp only
        cases hPE : (ProfanityDetector.detect env.lexicon ws).isEmpty
        · cases hSV : env.saveEdlR with
          | error e => exact ⟨_, rfl, by simp⟩
          | ok u2 => exact ⟨_, rfl, by simp⟩
        · exact ⟨_, rfl, by simp⟩

lemma apply_edl_boundary_ok (env : PipelineEnv) (input ep : String)
    (outp : Option String) (ov : Bool)
    (h : env.inputExists = false ∨ env.edlExists = false ∨
      (∃ edl, env.edlJson.bind EDL.from_dict = some edl ∧ edl.edits ≠ [] ∧
        stemsArgOk edl.stems_dir = true)) :
    ∃ r, (MusicProfanityFilter.apply_edl env input ep outp ov).1 = .ok r ∧
      (r.success = false → r.error.isSome = true) := by
  simp only [MusicProfanityFilter.apply_edl]
  cases hIE : env.inputExists
  · exact ⟨_, rfl, by simp⟩
  · cases hEE : env.edlExists
    · exact ⟨_, rfl, by simp⟩
    · rcases h with h | h | ⟨edl, hL, hNE, hSA⟩
      · rw [hIE] at h; cases h
      · rw [hEE] at h; cases h
      · rw [hL]
        dsimp only
        have hPE : edl.edits.isEmpty = false := by
          cases hlist : edl.edits
          · exact absurd hlist hNE
          · rfl
        rw [hPE, hSA]
        cases hSep : (if ((match edl.stems_dir with
            | some sd => jsonTruthy sd
            | none => false) && env.stemsCacheHit) = true
            then Except.ok () else env.separateR) with
        | error e => exact ⟨_, rfl, by simp⟩
        | ok u =>
          cases hM : env.muteR with
          | error e => exact ⟨_, rfl, by simp⟩
          | ok u2 =>
            cases hC : env.combineR with
            | error e => exact ⟨_, rfl, by simp⟩
            | ok u3 =>
              cases hCT : env.copyTagsR with
              | error e => exact ⟨_, rfl, by simp⟩
              | ok u4 =>
                cases hW : env.writeLogR with
                | error e => exact ⟨_, rfl, by simp⟩
                | ok u5 => exact ⟨_, rfl, by simp⟩

/-- C1 (amended): the workflow boundary guarantee holds for `filter` and
`generate_edl` whenever no reference lyrics are supplied — they always hand
back a `FilterResult`, and a failed run carries a captured error — and for
`apply_edl` whenever an input precheck fails or the EDL file loads with a
nonempty edit list and a `stems_dir` that `Path()` accepts (absent, falsy,
or a string). (The claim as stated is refuted by `pipeline_result_cex`:
`detect_only` returns a bare match list and lets collaborator exceptions
escape; truthy `lyrics` make `filter` and `generate_edl` raise
`AttributeError`, and `apply_edl` raises `UnboundLocalError` on the
remaining paths — a failing load, an empty edit list, or a truthy
non-string `stems_dir`, whose `TypeError` at pipeline.py line 445 is
caught but then superseded by the `finally`.) -/
theorem pipeline_result_boundary (env : PipelineEnv) (input ep : String)
    (outp edlp sdp : Option String) (ov : Bool)
    (cb : Option (List ProfanityMatch → Bool)) :
    (∃ r, (MusicProfanityFilter.filter env input outp ov cb none).1 = .ok r ∧
      (r.success = false → r.error.isSome = true)) ∧
    (∃ r, (MusicProfanityFilter.generate_edl env input edlp sdp none).1 = .ok r ∧
      (r.success = false → r.error.isSome = true)) ∧
    ((env.inputExists = false ∨ env.edlExists = false ∨
        (∃ edl, env.edlJson.bind EDL.from_dict = some edl ∧ edl.edits ≠ [] ∧
          stemsArgOk edl.stems_dir = true)) →
      ∃ r, (MusicProfanityFilter.apply_edl env input ep outp ov).1 = .ok r ∧
        (r.success = false → r.error.isSome = true)) :=
  ⟨filter_no_lyrics_ok env input outp ov cb,
   generate_edl_no_lyrics_ok env input edlp sdp,
   fun h => apply_edl_boundary_ok env input ep outp ov h⟩

/-- C1 witness: a concrete run of each conjunct, with the `apply_edl`
precondition discharged by a missing input file. -/
theorem pipeline_result_boundary_witness :
    ∃ r, (MusicProfanityFilter.apply_edl
        ⟨false, true, ["fuck"], .ok (), .ok [], .ok (), .ok (), .ok (), .ok (),
          .ok (), .ok (), none, false⟩
        "song.mp3" "song.edl.json" none false).1 = .ok r ∧
      (r.success = false → r.error.isSome = true) :=
  (pipeline_result_boundary
    ⟨false, true, ["fuck"], .ok (), .ok [], .ok (), .ok (), .ok (), .ok (),
      .ok (), .ok (), none, false⟩
    "song.mp3" "song.edl.json" none none none false none).2.2 (Or.inl rfl)

/-- C1 counterexample: `detect_only` (pipeline.py lines 224-251) wraps its
body in `try`/`finally` with no `except` and returns a bare list, so a
raising separator propagates an exception past the workflow boundary
instead of producing a result object with `success=false`. -/
theorem pipeline_result_cex :
    (MusicProfanityFilter.detect_only
      ⟨true, false, ["fuck"], .error "Demucs failed", .ok [], .ok (), .ok (),
        .ok (), .ok (), .ok (), .ok (), none, false⟩
      "song.mp3").1 = .error "Demucs failed" := rfl

/-- C3 (code bug): on an existing input with reference lyrics containing no
lexicon word, `generate_edl` does not short-circuit cleanly: the stems
directory is created on disk (`mkdir` at pipeline.py line 296 runs before
the lyric pre-check) and never removed, and instead of a `success=true`
result with an empty match list the call raises `AttributeError`, because
the pre-check invokes `self.detector.check_text`, a method
`ProfanityDetector` does not define. -/
theorem generate_edl_short_circuit_bug :
    MusicProfanityFilter.generate_edl
      ⟨true, false, ["fuck"], .ok (), .ok [], .ok (), .ok (), .ok (), .ok (),
        .ok (), .ok (), none, false⟩
      "song.mp3" none none (some "la la la")
    = (.error checkTextError, ⟨true, false, false, false, false⟩) := rfl

/-- C10 (code bug): on an existing input and a well-formed EDL file whose
edit list is empty, `apply_edl` performs no separation, muting or export,
but the intended `success=true` return at pipeline.py line 436 never
reaches the caller: the `finally` block at line 525 reads `temp_dir`,
first assigned at line 460, and raises `UnboundLocalError`, which replaces
the pending result. -/
theorem apply_edl_empty_edits_bug :
    MusicProfanityFilter.apply_edl
      ⟨true, true, ["fuck"], .ok (), .ok [], .ok (), .ok (), .ok (), .ok (),
        .ok (), .ok (),
        some (.obj [("source_file", .str "song.mp3"),
          ("generated", .str "2024-01-01T00:00:00"), ("edits", .arr [])]),
        false⟩
      "song.mp3" "song.edl.json" none false
    = (.error tempDirUnboundError, ⟨false, false, false, false, false⟩) := rfl
